import Mathlib

/-!
Verification of the blockify distillation service (iterative deduplication
engine, similarity index, hierarchical merger, job stores, LLM retry logic).

The definitions below are a shallow embedding of the Python sources under
`app/`.  Conventions used throughout:

* Python floats are modelled as `ℚ`.  The embedding contract (§4.1 of the
  design) guarantees unit-L2-norm vectors, under which the normalisation
  performed by `sklearn.metrics.pairwise.cosine_similarity` (and by the
  explicit `embeddings / norms` step in `app/dedupe/lsh.py`) divides by 1,
  so cosine similarity is the plain dot product.  Where observable
  behaviour depends on IEEE-754 rounding — the hierarchical split's slice
  boundaries `int(math.floor((i/k)*n))` — the binary64 rounding itself
  (53-bit significand, round-to-nearest, ties to even) is modelled
  exactly over `ℚ` by `fl64` below.
* External effects (the OpenAI embedding endpoint, the Blockify distill
  endpoint, `uuid.uuid4`, the random LSH hyperplanes, and the external
  `networkx` Louvain routine) are passed in as explicit oracle parameters.
* Thread pools (`ThreadPoolExecutor` + `as_completed`) only affect the
  relative order in which independent results are concatenated; the model
  fixes the natural sequential order (by chunk / cluster index).  No claim
  below observes the difference.
* Python `set` iteration order is unspecified; the model fixes a canonical
  (first-occurrence or lexicographic) enumeration.  Again no claim below
  depends on the choice, except where explicitly discussed.
-/

/-! ## Data model (`app/models.py`, block dictionaries) -/

/-- Content triple of an IdeaBlock (`blockifiedTextResult`). -/
structure Content where
  name : String
  criticalQuestion : String
  trustedAnswer : String
deriving DecidableEq, Repr

/-- A blockify result dictionary as it flows through the service
(`BlockifyResult` fields; the ephemeral `_embedding` key is modelled by
pairing a `Block` with a vector instead of mutating the record). -/
structure Block where
  type : String
  uuid : String
  content : Content
  hidden : Bool
  exported : Bool
  reviewed : Bool
  documentUuid : Option String := none
  sourcesUsed : Option (List String) := none
deriving DecidableEq, Repr

/-- Embedding vector (`numpy` row), floats modelled as rationals. -/
abbrev Vec := List ℚ

/-- Dot product of two vectors (`np.dot`). -/
def dotp (u v : Vec) : ℚ := (List.zipWith (· * ·) u v).sum

/-- Cosine similarity.  `sklearn`'s `cosine_similarity` (used by
`find_similar_pairs_dense`) and the explicit normalisation in
`find_similar_pairs_with_lsh` divide by the L2 norms; the embedding
endpoint contract guarantees unit norms, under which this is `dotp`. -/
def cosineSim (u v : Vec) : ℚ := dotp u v

/-- Request type validation (`app/models.py`, `BlockifyResult.type`):
`Literal["blockify", "merged", "synthetic", "new"]`.  Pydantic accepts a
block exactly when its `type` is in this set. -/
def blockTypeAllowed (t : String) : Bool :=
  t == "blockify" || t == "merged" || t == "synthetic" || t == "new"

/-- Python `str.strip()`: drop leading and trailing whitespace. -/
def pyStrip (s : String) : String :=
  ⟨((s.data.dropWhile Char.isWhitespace).reverse.dropWhile
      Char.isWhitespace).reverse⟩

/-- Text blob used for embedding a block
(`OpenAIEmbeddingGenerator.create_text_blob`): the stripped non-empty
content fields joined by spaces, or a placeholder derived from the
identifier when all three are empty. -/
def createTextBlob (b : Block) : String :=
  let parts := [b.content.name, b.content.criticalQuestion,
      b.content.trustedAnswer].map pyStrip |>.filter (· ≠ "")
  let text := String.intercalate " " parts
  if text = "" then "block-" ++ b.uuid else text

/-! ## Similarity index (`app/dedupe/similarity.py`) -/

/-- Descending-similarity comparison used to sort pair lists
(`pairs.sort(key=lambda x: x[2], reverse=True)`). -/
def simGE (a b : ℕ × ℕ × ℚ) : Prop := b.2.2 ≤ a.2.2

instance : DecidableRel simGE := fun a b =>
  inferInstanceAs (Decidable (b.2.2 ≤ a.2.2))

instance : IsTotal (ℕ × ℕ × ℚ) simGE := ⟨fun a b => le_total b.2.2 a.2.2⟩

instance : IsTrans (ℕ × ℕ × ℚ) simGE := ⟨fun _ _ _ h₁ h₂ => le_trans h₂ h₁⟩

/-- Upper-triangle traversal `for i in range(n): for j in range(i+1, n)`
producing every pair `(i, j, s)` whose similarity passes the threshold. -/
def densePairsUnsorted (V : List Vec) (θ : ℚ) : List (ℕ × ℕ × ℚ) :=
  let n := V.length
  (List.range n).flatMap fun i =>
    (List.range' (i + 1) (n - (i + 1))).filterMap fun j =>
      let s := cosineSim (V.getD i []) (V.getD j [])
      if θ ≤ s then some (i, j, s) else none

/-- `find_similar_pairs_dense`: guard for fewer than two rows, the
upper-triangle threshold scan (row chunks are concatenated; chunk
completion order only permutes the list ahead of the final sort), then a
sort by descending similarity.  Python's `list.sort` is a stable sort; any
sort by the same key agrees with it up to the order of ties, which no
property below observes, so a sort by `simGE` models it. -/
def findSimilarPairsDense (V : List Vec) (θ : ℚ) : List (ℕ × ℕ × ℚ) :=
  if V.length < 2 then []
  else List.insertionSort simGE (densePairsUnsorted V θ)

/-! ## LSH index (`app/dedupe/lsh.py`) -/

/-- `MIN_ITEMS_TO_ENABLE_LSH` -/
def minItemsToEnableLsh : ℕ := 50

/-- `LSHIndex._hash_vector`: sign bits of the projections onto the table's
hyperplanes, packed little-endian (`sum(bit << i)`). -/
def hashVector (planes : List Vec) (v : Vec) : ℕ :=
  planes.enum.foldl (fun acc pi => if 0 < dotp pi.2 v then acc + 2 ^ pi.1 else acc) 0

/-- Two item indices collide when some table hashes them identically;
`get_candidate_pairs` collects exactly the pairs `(i, j)`, `i < j`, that
share a bucket in at least one table. -/
def lshCollides (tables : List (List Vec)) (V : List Vec) (i j : ℕ) : Bool :=
  tables.any fun planes => hashVector planes (V.getD i []) == hashVector planes (V.getD j [])

/-- The upper-triangle index pairs `(i, j)`, `i < j < n`, in lexicographic
order. -/
def upperIndexPairs (n : ℕ) : List (ℕ × ℕ) :=
  (List.range n).flatMap fun i =>
    (List.range' (i + 1) (n - (i + 1))).map fun j => (i, j)

/-- Candidate pairs of `find_similar_pairs_with_lsh`.
`get_candidate_pairs` returns a Python `set` of colliding pairs `(i, j)`
with `i < j`; `list(candidates)` then enumerates it in an unspecified
order, modelled canonically as the lexicographic upper-triangle order.
(The absence of a final sort, which is what claims below exercise, does
not depend on this choice.) -/
def lshCandidatePairs (tables : List (List Vec)) (V : List Vec) : List (ℕ × ℕ) :=
  (upperIndexPairs V.length).filter fun p => lshCollides tables V p.1 p.2

/-- `find_similar_pairs_with_lsh`: below `MIN_ITEMS_TO_ENABLE_LSH` items it
delegates to the dense search; otherwise LSH candidates are verified by
exact cosine similarity (candidate chunks are concatenated in completion
order; the list is returned without sorting).  `tables` stands for the
`num_tables` random hyperplane matrices drawn by `LSHIndex.__init__`. -/
def findSimilarPairsWithLsh (tables : List (List Vec)) (V : List Vec) (θ : ℚ) :
    List (ℕ × ℕ × ℚ) :=
  if V.length < minItemsToEnableLsh then findSimilarPairsDense V θ
  else
    (lshCandidatePairs tables V).filterMap fun p =>
      let s := cosineSim (V.getD p.1 []) (V.getD p.2 [])
      if θ ≤ s then some (p.1, p.2, s) else none

/-- Boolean check that a pair list is sorted by descending similarity. -/
def sortedBySimDesc : List (ℕ × ℕ × ℚ) → Bool
  | [] => true
  | [_] => true
  | a :: b :: t => decide (b.2.2 ≤ a.2.2) && sortedBySimDesc (b :: t)

/-! ## Clustering (`DedupeAlgorithm._create_clusters`, `_bfs_clustering`) -/

/-- Neighbour list of `x` in the adjacency map built from the pair list
(`adjacency[i].add(j); adjacency[j].add(i)`).  Python stores a `set`
(unspecified iteration order); the model removes duplicates with
`List.dedup`, and no claim observes the enumeration order. -/
def neighbors (pairs : List (ℕ × ℕ × ℚ)) (x : ℕ) : List ℕ :=
  ((pairs.filterMap fun p => if p.1 = x then some p.2.1 else none) ++
    (pairs.filterMap fun p => if p.2.1 = x then some p.1 else none)).dedup

/-- Distinct endpoints of the pair list (`len(adjacency)` keys), used only
to choose the clustering strategy. -/
def distinctEndpoints (pairs : List (ℕ × ℕ × ℚ)) : List ℕ :=
  (pairs.flatMap fun p => [p.1, p.2.1]).dedup

/-- One connected-component collection of `_bfs_clustering`'s inner
`while stack:` loop.  The Python stack is a list popped from the end
(depth-first); the model keeps the top at the head, so appending the
unvisited neighbours corresponds to consing their reverse.  `fuel` bounds
the number of pops; every pop either consumes a stack entry or visits a
node, and each visit pushes at most its neighbour count, so the caller's
fuel of `1 + n + 2·|pairs|` is never exhausted. -/
def dfsCollect (adj : ℕ → List ℕ) : ℕ → List ℕ → List ℕ → List ℕ × List ℕ
  | 0, _, visited => ([], visited)
  | _ + 1, [], visited => ([], visited)
  | fuel + 1, node :: stack, visited =>
    if visited.contains node then dfsCollect adj fuel stack visited
    else
      let visited₁ := node :: visited
      let pushes := (adj node).filter fun m => ¬ visited₁.contains m
      let (cluster, visited₂) := dfsCollect adj fuel (pushes.reverse ++ stack) visited₁
      (node :: cluster, visited₂)

/-- `_bfs_clustering`: connected components, scanning start nodes in index
order with a persistent visited set. -/
def bfsClustering (pairs : List (ℕ × ℕ × ℚ)) (n : ℕ) : List (List ℕ) :=
  let adj := neighbors pairs
  let fuel := 1 + n + 2 * pairs.length
  ((List.range n).foldl
    (fun acc i =>
      if acc.2.contains i then acc
      else
        let (cluster, visited) := dfsCollect adj fuel [i] acc.2
        (acc.1 ++ [cluster], visited))
    ([], [])).1

/-- `LOUVAIN_NODE_THRESHOLD` -/
def louvainNodeThreshold : ℕ := 1000

/-- `_create_clusters`: singletons for an empty pair list, otherwise BFS
components for small graphs and `networkx` Louvain communities (an
external library, passed as the oracle `louvain`) for graphs with at least
`LOUVAIN_NODE_THRESHOLD` distinct endpoints. -/
def createClusters (louvain : List (ℕ × ℕ × ℚ) → ℕ → List (List ℕ))
    (pairs : List (ℕ × ℕ × ℚ)) (n : ℕ) : List (List ℕ) :=
  if pairs.isEmpty then (List.range n).map fun i => [i]
  else if louvainNodeThreshold ≤ (distinctEndpoints pairs).length then louvain pairs n
  else bfsClustering pairs n

/-! ## Merged-block construction (`DedupeService._contents_to_blocks`) -/

/-- `DedupeService._contents_to_blocks`: each merged content becomes a
full block with a fresh identifier (`uuid.uuid4()`, modelled by the
supply `gen` at consecutive indices from `ctr`), `type="merged"`, all
flags false, `blockifyResultsUsed` equal to the identifiers of *all*
source blocks, and the first truthy `blockifyDocumentUUID` found among the
sources, if any. -/
def contentsToBlocks (gen : ℕ → String) (ctr : ℕ) (contents : List Content)
    (sourceBlocks : List Block) : List Block :=
  let sourceUuids := sourceBlocks.map Block.uuid
  let docUuid := (sourceBlocks.filterMap Block.documentUuid).head?
  contents.enum.map fun ic =>
    { type := "merged"
      uuid := gen (ctr + ic.1)
      content := ic.2
      hidden := false
      exported := false
      reviewed := false
      documentUuid := if docUuid.getD "" = "" then none else docUuid
      sourcesUsed := some sourceUuids }

/-! ## Iteration driver (`DedupeAlgorithm.run_dedupe`) -/

/-- External collaborators of one deduplication run, as oracles:
the embedding endpoint (keyed by text blob), the LLM distill outcome per
(iteration, mergeable-cluster index) — `[]` encodes a merge failure
(exception after retries, or an empty parse) — the `uuid.uuid4` supply,
the random LSH hyperplane tables, and the `networkx` Louvain routine. -/
structure DedupeOracles where
  embed : String → Vec
  mergeContents : ℕ → ℕ → List Content
  gen : ℕ → String
  tables : List (List Vec)
  louvain : List (ℕ × ℕ × ℚ) → ℕ → List (List ℕ)

/-- `DedupeAlgorithm._find_similar_pairs` with the default `use_lsh=True`:
LSH for at least `MIN_ITEMS_TO_ENABLE_LSH` rows, dense otherwise. -/
def findSimilarPairsAuto (tables : List (List Vec)) (V : List Vec) (θ : ℚ) :
    List (ℕ × ℕ × ℚ) :=
  if minItemsToEnableLsh ≤ V.length then findSimilarPairsWithLsh tables V θ
  else findSimilarPairsDense V θ

/-- Mutable state of the iteration loop: the active master list (blocks
with their embeddings), the accumulated hidden identifiers and merged
blocks, the `uuid` supply position, and the current threshold. -/
structure LoopState where
  master : List (Block × Vec)
  hiddenIds : List String
  merged : List Block
  ctr : ℕ
  θ : ℚ

/-- Per-iteration cluster processing (the `process_single_cluster` worker
over `enumerate(mergeable_clusters)`).  Clusters run on a thread pool and
are collected in completion order; the model threads the accumulator in
cluster-index order.  A failed merge (empty contents) records nothing —
`failed_cluster_indices` is never read afterwards. -/
def processClusters (o : DedupeOracles) (iteration : ℕ)
    (master : List (Block × Vec)) (clusters : List (List ℕ)) (ctr : ℕ) :
    List Block × List String × List ℕ × ℕ :=
  clusters.enum.foldl
    (fun acc ci =>
      let clusterBlocks := ci.2.filterMap fun i => (master.get? i).map Prod.fst
      let contents := o.mergeContents iteration ci.1
      if contents.isEmpty then acc
      else
        let newBlocks := contentsToBlocks o.gen acc.2.2.2 contents clusterBlocks
        (acc.1 ++ newBlocks,
         acc.2.1 ++ clusterBlocks.map Block.uuid,
         acc.2.2.1 ++ ci.2,
         acc.2.2.2 + contents.length))
    ([], [], [], ctr)

/-- `MAX_SIMILARITY_THRESHOLD` (0.98), `SIMILARITY_INCREASE_PER_ITERATION`
(0.01) and `SIMILARITY_INCREASE_ITERATION_START` (2), at their defaults. -/
def maxSimilarityThreshold : ℚ := 98 / 100

/-- Default threshold increment per iteration. -/
def similarityIncreasePerIteration : ℚ := 1 / 100

/-- One pass of the `for iteration in range(1, max_iterations + 1)` body.
Returns the new state and whether the loop continues; the early `break`s
(fewer than two blocks, no pairs, no mergeable clusters) leave the state
untouched, while the no-merges-at-max-threshold `break` fires *after* the
state update and *before* the threshold escalation. -/
def dedupeIter (o : DedupeOracles) (iteration : ℕ) (st : LoopState) :
    LoopState × Bool :=
  if st.master.length < 2 then (st, false)
  else
    let embeddings := st.master.map Prod.snd
    let pairs := findSimilarPairsAuto o.tables embeddings st.θ
    if pairs.isEmpty then (st, false)
    else
      let clusters := createClusters o.louvain pairs st.master.length
      let mergeable := clusters.filter fun c => 1 < c.length
      if mergeable.isEmpty then (st, false)
      else
        let (mergedResults, hiddenNow, succIdx, ctr') :=
          processClusters o iteration st.master mergeable st.ctr
        let mergedWithEmb := mergedResults.map fun b => (b, o.embed (createTextBlob b))
        let keep := ((List.range st.master.length).filter
            fun i => ¬ succIdx.contains i).filterMap st.master.get?
        let cont := ¬ (mergedResults.isEmpty ∧ maxSimilarityThreshold ≤ st.θ)
        let θ' := if cont ∧ 2 ≤ iteration then
            min (st.θ + similarityIncreasePerIteration) maxSimilarityThreshold
          else st.θ
        ({ master := keep ++ mergedWithEmb
           hiddenIds := st.hiddenIds ++ hiddenNow
           merged := st.merged ++ mergedResults
           ctr := ctr'
           θ := θ' }, cont)

/-- The iteration loop, recursing on the remaining iteration budget. -/
def dedupeLoop (o : DedupeOracles) : ℕ → ℕ → LoopState → LoopState
  | 0, _, st => st
  | fuel + 1, iteration, st =>
    let (st', cont) := dedupeIter o iteration st
    if cont then dedupeLoop o fuel (iteration + 1) st' else st'

/-! ## Result assembly and statistics -/

/-- Processing statistics (`ProcessingStats`). -/
structure Stats where
  startingBlockCount : ℕ
  finalBlockCount : ℕ
  blocksRemoved : ℤ
  blocksAdded : ℕ
  blockReductionPercent : ℚ
deriving DecidableEq, Repr

/-- Rounding to two decimal places, `round(x, 2)`.  (Python rounds exact
halves to even; `round` rounds them up.  The two agree except on exact
ties at the third decimal, and every claim below uses this same model
function on both sides.) -/
def round2 (x : ℚ) : ℚ := (round (x * 100) : ℚ) / 100

/-- `DedupeAlgorithm._create_stats`. -/
def createStats (startingCount finalCount mergedCount : ℕ) : Stats :=
  { startingBlockCount := startingCount
    finalBlockCount := finalCount
    blocksRemoved := (startingCount : ℤ) - finalCount + mergedCount
    blocksAdded := mergedCount
    blockReductionPercent :=
      if 0 < startingCount then
        round2 (((startingCount : ℚ) - finalCount) / startingCount * 100)
      else 0 }

/-- Blocks that take part in processing: `hidden=False` and
`exported=False` (`run_dedupe` phase 1). -/
def activeBlocks (blocks : List Block) : List Block :=
  blocks.filter fun b => ¬ b.hidden ∧ ¬ b.exported

/-- Identifiers of the active input blocks. -/
def activeIds (blocks : List Block) : List String :=
  (activeBlocks blocks).map Block.uuid

/-- `DedupeAlgorithm.run_dedupe`: filter, embed, iterate, then assemble
`final_blocks` from the not-hidden originals followed by every merged
block, with `_create_stats` over the starting count.  Progress reports
and intermediate snapshots only write through callbacks to the job store
and never feed back into the loop state; they are omitted here. -/
def runDedupe (o : DedupeOracles) (blocks : List Block) (similarity : ℚ)
    (maxIterations : ℕ) : List Block × Stats :=
  let active := activeBlocks blocks
  let startingCount := active.length
  if startingCount < 2 then (active, createStats startingCount startingCount 0)
  else
    let master₀ := active.map fun b => (b, o.embed (createTextBlob b))
    let final := dedupeLoop o maxIterations 1
      { master := master₀, hiddenIds := [], merged := [], ctr := 0, θ := similarity }
    let finalBlocks :=
      (active.filter fun b => ¬ final.hiddenIds.contains b.uuid) ++ final.merged
    (finalBlocks, createStats startingCount finalBlocks.length final.merged.length)

/-- An `AutoDistillRequest` (validated fields; `similarity ∈ [0,1]`,
`iterations ∈ [1,10]`, `results` non-empty are enforced by pydantic). -/
structure AutoDistillRequest where
  blockifyTaskUUID : String
  similarity : ℚ
  iterations : ℕ
  results : List Block

/-- Response payload assembled by `process_dedupe_request`. -/
structure DedupeResponse where
  stats : Stats
  results : List Block
deriving DecidableEq, Repr

/-- A hidden copy of an input block for the response
(`hidden_block["hidden"] = True`, ephemeral keys stripped). -/
def hideBlock (b : Block) : Block := { b with hidden := true }

/-- The merged section of the final payload: the blocks of `final_blocks`
with `type == "merged"` (`new_output_blocks`), internal keys stripped. -/
def mergedSection (o : DedupeOracles) (req : AutoDistillRequest) : List Block :=
  ((runDedupe o req.results req.similarity req.iterations).1).filter
    fun b => b.type == "merged"

/-- `DedupeService.process_dedupe_request`: run the algorithm, return all
input blocks marked hidden followed by the merged blocks, and recompute
the statistics counting every original as removed and every merged block
as added. -/
def processDedupeRequest (o : DedupeOracles) (req : AutoDistillRequest) :
    DedupeResponse :=
  let (_, stats₀) := runDedupe o req.results req.similarity req.iterations
  let originalHidden := req.results.map hideBlock
  let newOutput := mergedSection o req
  let startingCount := stats₀.startingBlockCount
  let finalCount := newOutput.length
  { stats :=
      { startingBlockCount := startingCount
        finalBlockCount := finalCount
        blocksRemoved := (startingCount : ℤ)
        blocksAdded := finalCount
        blockReductionPercent :=
          if 0 < startingCount then
            round2 (100 * (1 - (finalCount : ℚ) / startingCount))
          else 0 }
    results := originalHidden ++ newOutput }

/-- Union (with multiplicity, read as a set) of `sourcesUsed` over a block
list. -/
def sourcesUnion (blocks : List Block) : List String :=
  blocks.flatMap fun b => b.sourcesUsed.getD []

/-- An identifier produced by the `uuid.uuid4` supply. -/
def MintedBy (gen : ℕ → String) (s : String) : Prop := ∃ k, s = gen k

/-! ## Hierarchical merger slicing
(`DedupeService._process_large_cluster_recursively`, the `n > M` branch) -/

/-- `MAX_CLUSTER_SIZE_FOR_LLM` (= `max_cluster_size_for_llm`, default 20). -/
def maxClusterSizeForLlm : ℕ := 20

/-- Target subcluster size
`min(MAX_CLUSTER_SIZE_FOR_LLM, max(5, int(math.floor(math.sqrt(n) * 2))))`;
over the reals `⌊2·√n⌋ = ⌊√(4n)⌋ = Nat.sqrt (4n)`, and the binary64
`floor(sqrt(n)*2)` agrees with the exact value throughout the relevant
range (`sqrt` is correctly rounded and `2·√n` is never within a double
ulp of an integer at these magnitudes). -/
def subclusterTargetSize (n : ℕ) : ℕ :=
  min maxClusterSizeForLlm (max 5 (Nat.sqrt (4 * n)))

/-- Number of subclusters `math.ceil(n / target_size)` (the binary64
quotient `n / s` again rounds to a value whose ceiling is exactly
`⌈n/s⌉` throughout the relevant range). -/
def numSubclusters (n : ℕ) : ℕ :=
  let s := subclusterTargetSize n
  (n + s - 1) / s

/-- Round a rational to the nearest integer, ties to even — the rounding
step of IEEE-754 round-to-nearest applied to a scaled significand. -/
def roundNearestEven (q : ℚ) : ℤ :=
  if q - ⌊q⌋ < 1/2 then ⌊q⌋
  else if (1:ℚ)/2 < q - ⌊q⌋ then ⌊q⌋ + 1
  else if ⌊q⌋ % 2 = 0 then ⌊q⌋ else ⌊q⌋ + 1

/-- Powers `2^e` over `ℚ` for a signed exponent, written with
natural-number powers so that the kernel can evaluate them. -/
def pow2 (e : ℤ) : ℚ :=
  if 0 ≤ e then ((2 ^ e.toNat : ℕ) : ℚ) else 1 / ((2 ^ (-e).toNat : ℕ) : ℚ)

/-- The binade of `q`: the exponent `e` with `2^e ≤ q < 2^(e+1)`, searched
over the window `[-80, 80]`, which covers every value the slicing code
feeds to the float unit. -/
def flExp (q : ℚ) : ℤ :=
  (List.range 161).foldl
    (fun acc j => if pow2 ((j : ℤ) - 80) ≤ q ∧ q < pow2 ((j : ℤ) - 80 + 1)
      then (j : ℤ) - 80 else acc) 0

/-- Round a non-negative rational to the nearest IEEE-754 binary64 value
(53 significand bits, round-to-nearest, ties to even).  Every value the
slicing code rounds is `0` or a normal number far inside the exponent
window, where this is exactly the hardware float semantics. -/
def fl64 (q : ℚ) : ℚ :=
  if q ≤ 0 then 0
  else (roundNearestEven (q / pow2 (flExp q - 52)) : ℚ) * pow2 (flExp q - 52)

/-- The boundary `int(math.floor((i / num_subclusters) * n))` as the
source computes it: `i / k` is binary64 division (the correctly rounded
exact quotient), the product with `n` is again correctly rounded (`n`
itself is exactly representable), and `math.floor` is exact on
doubles. -/
def pySliceBoundary (i k n : ℕ) : ℕ :=
  (⌊fl64 (fl64 ((i : ℚ) / k) * n)⌋).toNat

/-- Slice bounds: slice `i` of `k` covers the index range
`[int(floor((i/k)*n)), int(floor(((i+1)/k)*n)))` evaluated in binary64;
these boundaries drift below the exact `⌊i·n/k⌋` at some reachable sizes
(first at `n = 209`, `k = 11`, `i = 3`). -/
def sliceBounds (n k : ℕ) : List (ℕ × ℕ) :=
  (List.range k).map fun i => (pySliceBoundary i k n, pySliceBoundary (i + 1) k n)

/-- Contiguous slices of a list at the given bounds, keeping only the
non-empty ones (`if start < end: subclusters.append(...)`); Python's
`l[start:end]` is `(l.drop start).take (end - start)`. -/
def sliceList (l : List α) (k : ℕ) : List (List α) :=
  (sliceBounds l.length k).filterMap fun p =>
    if p.1 < p.2 then some ((l.drop p.1).take (p.2 - p.1)) else none

/-- Ordering of blocks by identifier used for the deterministic sort
(`sorted(cluster_blocks, key=lambda b: b.get("blockifyResultUUID", ""))`).
Python's sort is stable; ties (equal identifiers) are the only difference
from any other sort by the same key and are not observed below. -/
def uuidLE (a b : Block) : Prop := a.uuid ≤ b.uuid

instance : DecidableRel uuidLE := fun a b =>
  inferInstanceAs (Decidable (a.uuid ≤ b.uuid))

instance : IsTotal Block uuidLE := ⟨fun a b => le_total a.uuid b.uuid⟩

instance : IsTrans Block uuidLE := ⟨fun _ _ _ h₁ h₂ => le_trans h₁ h₂⟩

/-- The subcluster partition computed by
`_process_large_cluster_recursively` before recursing: sort by identifier,
then cut into `num_subclusters` contiguous slices. -/
def subclusterSlices (blocks : List Block) : List (List Block) :=
  sliceList (List.insertionSort uuidLE blocks) (numSubclusters blocks.length)

/-! ## Job stores (`app/db/sqlite.py`, `app/db/filesystem.py`) -/

/-- Serialized JSON payload (a job result or intermediate snapshot);
opaque to the store. -/
abbrev Payload := String

/-- One row of the SQLite `jobs` table (`JobModel`). -/
structure SqlJob where
  status : String
  createdAt : ℚ
  completedAt : Option ℚ
  result : Option Payload
  error : Option String
  progress : ℚ
  progressPhase : String
  progressDetails : String
  intermediateResult : Option Payload
  webhookUrl : Option String
deriving DecidableEq, Repr

/-- The SQLite store: the `jobs` table keyed by `job_id`.  (The in-memory
`_running_futures` bookkeeping of the `JobStore` base class is not part of
the job record and is omitted.) -/
def SqliteStore : Type := String → Option SqlJob

/-- Point update of a table/map. -/
def updateMap (m : String → Option α) (k : String) (v : Option α) :
    String → Option α :=
  fun x => if x = k then v else m x

/-- `SQLiteJobStore.update_job_success`: set status/completion/result and
clear the intermediate snapshot.  `now` stands for `time.time()`. -/
def sqliteUpdateSuccess (st : SqliteStore) (id : String) (r : Payload)
    (now : ℚ) : SqliteStore :=
  match st id with
  | none => st
  | some j =>
    updateMap st id (some { j with
      status := "success", completedAt := some now, result := some r,
      intermediateResult := none })

/-- `SQLiteJobStore.update_job_timeout`: no-op if the job already
succeeded, otherwise set status/completion/error. -/
def sqliteUpdateTimeout (st : SqliteStore) (id : String) (now : ℚ) :
    SqliteStore :=
  match st id with
  | none => st
  | some j =>
    if j.status = "success" then st
    else
      updateMap st id (some { j with
        status := "timeout", completedAt := some now,
        error := some "Job execution timed out" })

/-- `SQLiteJobStore.get_intermediate_result` (via `get_job`). -/
def sqliteGetIntermediate (st : SqliteStore) (id : String) : Option Payload :=
  (st id).bind SqlJob.intermediateResult

/-- In-memory `Job` record of the filesystem store. -/
structure FsJob where
  status : String
  createdAt : ℚ
  completedAt : Option ℚ
  result : Option Payload
  error : Option String
  progress : ℚ
  progressPhase : String
  intermediateResult : Option Payload
  webhookUrl : Option String
deriving DecidableEq, Repr

/-- The on-disk `<id>.json` record written by `_persist_job` (only these
fields are serialized). -/
structure FsDiskJob where
  status : String
  createdAt : ℚ
  completedAt : Option ℚ
  result : Option Payload
  error : Option String
  webhookUrl : Option String
deriving DecidableEq, Repr

/-- `FilesystemJobStore` state: the in-memory `_jobs` dict, the `jobs/`
directory of final records, and the sibling `*.intermediate.json` files. -/
structure FsStore where
  mem : String → Option FsJob
  disk : String → Option FsDiskJob
  intermediateDisk : String → Option Payload

/-- Projection persisted by `FilesystemJobStore._persist_job`. -/
def fsPersist (j : FsJob) : FsDiskJob :=
  { status := j.status, createdAt := j.createdAt, completedAt := j.completedAt,
    result := j.result, error := j.error, webhookUrl := j.webhookUrl }

/-- `FilesystemJobStore.update_job_success`: update the in-memory job,
persist it, delete the intermediate file, and drop the job from memory. -/
def fsUpdateSuccess (st : FsStore) (id : String) (r : Payload) (now : ℚ) :
    FsStore :=
  match st.mem id with
  | none => st
  | some j =>
    let j' := { j with
      status := "success", completedAt := some now, result := some r }
    { mem := updateMap st.mem id none
      disk := updateMap st.disk id (some (fsPersist j'))
      intermediateDisk := updateMap st.intermediateDisk id none }

/-- `FilesystemJobStore.update_job_timeout`: acts only on an in-memory
(running) job, and returns untouched if that job already succeeded; the
intermediate file is preserved. -/
def fsUpdateTimeout (st : FsStore) (id : String) (now : ℚ) : FsStore :=
  match st.mem id with
  | none => st
  | some j =>
    if j.status = "success" then st
    else
      let j' := { j with
        status := "timeout", completedAt := some now,
        error := some "Job execution timed out" }
      { mem := updateMap st.mem id none
        disk := updateMap st.disk id (some (fsPersist j'))
        intermediateDisk := st.intermediateDisk }

/-- Status visible through `FilesystemJobStore.get_job`: memory first,
then the on-disk record. -/
def fsGetStatus (st : FsStore) (id : String) : Option String :=
  match st.mem id with
  | some j => some j.status
  | none => (st.disk id).map FsDiskJob.status

/-- `FilesystemJobStore.get_intermediate_result`: the in-memory snapshot
if the job is in memory and has one, else the `*.intermediate.json`
file. -/
def fsGetIntermediate (st : FsStore) (id : String) : Option Payload :=
  match (st.mem id).bind FsJob.intermediateResult with
  | some p => some p
  | none => st.intermediateDisk id

/-! ## LLM merge retry behaviour
(`DedupeService._single_llm_merge` over `BlockifyLLM._call_blockify_api`) -/

/-- Outcome of one HTTP round trip to the distill endpoint, as seen inside
`_call_blockify_api`:
* `fail e` — a raised exception: transport failure, timeout, or a non-2xx
  status via `response.raise_for_status()`;
* `ok parsed` — an HTTP 200 whose content parses (through
  `_parse_all_xml_ideablocks` and the JSON fallbacks) to the given blocks;
  `ok []` covers both an unparseable body and the unknown-format
  `return None` branch, each of which makes `merge_cluster` report
  `success=False` with error "Invalid response from Blockify". -/
inductive ApiOutcome where
  | fail (e : String)
  | ok (parsed : List Content)

/-- Result of a full `_single_llm_merge` run: the returned contents or the
raised `RuntimeError` message, the sequence of `time.sleep` durations (in
seconds), and the number of HTTP calls performed.  The HTTP call oracle is
indexed by call count. -/
structure LlmRunResult where
  result : Except String (List Content)
  sleeps : List ℕ
  apiCalls : ℕ
deriving Repr

/-- `BlockifyLLM._call_blockify_api` with its local default
`max_retries=3` (`for attempt in range(max_retries)` unrolled): a raised
attempt sleeps `2 ** attempt` seconds (1 s, then 2 s) before the next one,
and the third failure re-raises.  Returns the outcome, the sleeps, and the
next call index. -/
def callBlockifyApi (oracle : ℕ → ApiOutcome) (k : ℕ) :
    Except String (List Content) × List ℕ × ℕ :=
  match oracle k with
  | .ok p => (.ok p, [], k + 1)
  | .fail _ =>
    match oracle (k + 1) with
    | .ok p => (.ok p, [1], k + 2)
    | .fail _ =>
      match oracle (k + 2) with
      | .ok p => (.ok p, [1, 2], k + 3)
      | .fail e₂ => (.error e₂, [1, 2], k + 3)

/-- `BlockifyLLM.merge_cluster`: any exception from the API call is caught
and becomes `success=False` with the exception text; an empty parse
becomes `success=False` with "Invalid response from Blockify"; a
non-empty parse succeeds. -/
def mergeClusterCall (oracle : ℕ → ApiOutcome) (k : ℕ) :
    Except String (List Content) × List ℕ × ℕ :=
  match callBlockifyApi oracle k with
  | (.error e, s, k') => (.error e, s, k')
  | (.ok [], s, k') => (.error "Invalid response from Blockify", s, k')
  | (.ok p, s, k') => (.ok p, s, k')

/-- Message of the `RuntimeError` raised after the service-level retries
are exhausted (`LLM_MAX_RETRIES = 3`). -/
def runtimeErrorMsg (lastError : String) : String :=
  "LLM merge failed after 3 attempts. Last error: " ++ lastError

/-- `DedupeService._single_llm_merge` with the default configuration
(`llm_max_retries=3`, `llm_retry_delay=2.0`): up to three `merge_cluster`
attempts, sleeping `2 * 2 ** (attempt - 1)` seconds (2 s, then 4 s)
between them, raising `RuntimeError` with the last error after the third
failure.  Each attempt internally performs up to three HTTP calls. -/
def singleLlmMerge (oracle : ℕ → ApiOutcome) : LlmRunResult :=
  match mergeClusterCall oracle 0 with
  | (.ok c, s₁, k₁) => ⟨.ok c, s₁, k₁⟩
  | (.error _, s₁, k₁) =>
    match mergeClusterCall oracle k₁ with
    | (.ok c, s₂, k₂) => ⟨.ok c, s₁ ++ [2] ++ s₂, k₂⟩
    | (.error _, s₂, k₂) =>
      match mergeClusterCall oracle k₂ with
      | (.ok c, s₃, k₃) => ⟨.ok c, s₁ ++ [2] ++ s₂ ++ [4] ++ s₃, k₃⟩
      | (.error e₃, s₃, k₃) =>
        ⟨.error (runtimeErrorMsg e₃), s₁ ++ [2] ++ s₂ ++ [4] ++ s₃, k₃⟩

/-! ## Concrete inputs used by counterexamples and witnesses -/

/-- Embedding oracle for the concrete runs: blobs "c" and "m" map to
`[0, 1]`, everything else to `[1, 0]` (unit vectors). -/
def cexEmbed : String → Vec := fun s =>
  if s = "c" ∨ s = "m" then [0, 1] else [1, 0]

/-- Distill oracle for the concrete runs: every merge succeeds, producing
one block named "m" in iteration 1 and "mm" afterwards. -/
def cexMergeContents : ℕ → ℕ → List Content := fun it _ =>
  if it = 1 then [⟨"m", "", ""⟩] else [⟨"mm", "", ""⟩]

/-- Deterministic `uuid.uuid4` supply for the concrete runs. -/
def cexGen : ℕ → String := fun k => "g" ++ toString k

/-- Dummy Louvain oracle (never reached in the concrete runs: all their
graphs are far below `LOUVAIN_NODE_THRESHOLD`). -/
def cexLouvain : List (ℕ × ℕ × ℚ) → ℕ → List (List ℕ) := fun _ _ => []

/-- Oracle bundle for the concrete runs. -/
def cexOracles : DedupeOracles :=
  ⟨cexEmbed, cexMergeContents, cexGen, [], cexLouvain⟩

/-- An active input block with the given type, identifier and name. -/
def mkInputBlock (ty u nm : String) : Block :=
  { type := ty, uuid := u, content := ⟨nm, "", ""⟩,
    hidden := false, exported := false, reviewed := false }

/-- Three active input blocks, two of them near-duplicates, run for two
iterations at threshold 0.5: iteration 1 merges a+b into a fresh block
(uuid "g0"), iteration 2 merges that block with c. -/
def reqTwoIter : AutoDistillRequest :=
  ⟨"task", 1/2, 2,
    [mkInputBlock "blockify" "a" "a", mkInputBlock "blockify" "b" "b",
     mkInputBlock "blockify" "c" "c"]⟩

/-- Fifty unit vectors for the LSH path: rows 0 and 2 are `[1,0]`, row 1
is `[3/5,4/5]` (similarity 3/5 with them), the rest are `[0,1]`. -/
def cexVLsh : List Vec := [[1, 0], [3/5, 4/5], [1, 0]] ++ List.replicate 47 [0, 1]

/-- Hyperplane tables for which every one of the vectors above has the
all-ones sign pattern, so every pair is an LSH candidate. -/
def cexTables : List (List Vec) := List.replicate 10 (List.replicate 8 [1, 1])

/-- A single active input block that already carries `type="merged"` (a
value the request validator accepts) and no `blockifyResultsUsed`. -/
def reqInputMerged : AutoDistillRequest :=
  ⟨"task", 1/2, 1,
    [{ type := "merged", uuid := "x", content := ⟨"n", "q", "t"⟩,
       hidden := false, exported := false, reviewed := false }]⟩

/-- The literal end-to-end scenario of §8: a single input block already
hidden. -/
def reqSingleHidden : AutoDistillRequest :=
  ⟨"task", 1/2, 4,
    [{ type := "blockify", uuid := "x", content := ⟨"a", "b", "c"⟩,
       hidden := true, exported := false, reviewed := false }]⟩

/-- Forty-five distinct blocks for the hierarchical-split witness. -/
def blocks45 : List Block :=
  (List.range 45).map fun i => mkInputBlock "blockify" (toString (100 + i)) "n"

/-- A succeeded SQLite job row with a (stale) intermediate snapshot. -/
def wJobSql : SqlJob :=
  { status := "success", createdAt := 0, completedAt := some 1,
    result := some "r", error := none, progress := 1, progressPhase := "",
    progressDetails := "", intermediateResult := some "snap",
    webhookUrl := none }

/-- A one-row SQLite store. -/
def wSqliteStore : SqliteStore := fun x => if x = "j" then some wJobSql else none

/-- A running filesystem job with an intermediate snapshot. -/
def wJobFs : FsJob :=
  { status := "running", createdAt := 0, completedAt := none,
    result := none, error := none, progress := 0, progressPhase := "",
    intermediateResult := some "snap", webhookUrl := none }

/-- A filesystem store with one running in-memory job. -/
def wFsStore : FsStore :=
  { mem := fun x => if x = "j" then some wJobFs else none
    disk := fun _ => none
    intermediateDisk := fun x => if x = "j" then some "snap" else none }

/-- An injective `uuid` supply used in witnesses. -/
def wGen : ℕ → String := fun k => ⟨List.replicate k 'x'⟩

/-- A source identifier is accounted for when it is an active input
identifier, a freshly minted identifier, or declared in an active input
block's own `blockifyResultsUsed`. -/
def OkSource (A : List Block) (gen : ℕ → String) (s : String) : Prop :=
  s ∈ A.map Block.uuid ∨ MintedBy gen s ∨ ∃ b ∈ A, s ∈ b.sourcesUsed.getD []

/-- Invariant of every block circulating in the iteration loop: its own
identifier is an active input identifier or freshly minted, and each of
its listed sources is accounted for. -/
def OkBlock (A : List Block) (gen : ℕ → String) (b : Block) : Prop :=
  (b.uuid ∈ A.map Block.uuid ∨ MintedBy gen b.uuid) ∧
    ∀ s ∈ b.sourcesUsed.getD [], OkSource A gen s

/-! # Theorems -/

/-- C5 counterexample: the request validator rejects `type="original"`
(the accepted literal is `"blockify"`), contradicting the claim that a
block with `type="original"` passes validation. -/
theorem c5_counterexample :
    blockTypeAllowed "original" = false ∧ blockTypeAllowed "blockify" = true := by
  decide

/-- C5 (amended): request validation accepts a submitted block exactly
when its `type` field is one of "blockify", "merged", "synthetic", "new";
any other value — in particular "original" — is rejected. -/
theorem c5_type_validation (t : String) :
    blockTypeAllowed t = true ↔
      t = "blockify" ∨ t = "merged" ∨ t = "synthetic" ∨ t = "new" := by
  simp [blockTypeAllowed]
  tauto

/-- Witness for C5: the amended characterisation at a concrete type. -/
theorem c5_witness : blockTypeAllowed "merged" = true :=
  (c5_type_validation "merged").mpr (Or.inr (Or.inl rfl))

/-- C6 counterexample: when every HTTP round trip fails in transport, the
operation performs 9 API calls (not at most `R = 3`) and its first backoff
delay is 1 second (not 2): the client-level loop in `_call_blockify_api`
sleeps `2 ** attempt` starting at attempt 0, nested inside the
service-level loop. -/
theorem c6_counterexample :
    (singleLlmMerge (fun _ => .fail "boom")).apiCalls = 9 ∧
    (singleLlmMerge (fun _ => .fail "boom")).sleeps.head? = some 1 := by
  decide

/-- Bound on the call counter of one `_call_blockify_api` invocation. -/
theorem callBlockifyApi_calls_le (o : ℕ → ApiOutcome) (k : ℕ) :
    (callBlockifyApi o k).2.2 ≤ k + 3 := by
  unfold callBlockifyApi
  cases o k <;> [skip; exact by simp]
  cases o (k + 1) <;> [skip; exact by simp]
  cases o (k + 2) <;> simp

/-- Bound on the call counter of one `merge_cluster` attempt. -/
theorem mergeClusterCall_calls_le (o : ℕ → ApiOutcome) (k : ℕ) :
    (mergeClusterCall o k).2.2 ≤ k + 3 := by
  have h := callBlockifyApi_calls_le o k
  unfold mergeClusterCall
  rcases hc : callBlockifyApi o k with ⟨r, s, k'⟩
  rw [hc] at h
  rcases r with e | c
  · exact h
  · rcases c with _ | ⟨c₀, cs⟩ <;> exact h

/-- C6 (amended): parse failures are retried up to 3 times by the service
with delays 2 s then 4 s; transport / non-2xx failures are additionally
retried up to 3 times inside the API client with delays 1 s then 2 s
before each service-level retry, giving up to 9 HTTP calls with delay
sequence 1,2,2,1,2,4,1,2; after exhaustion a `RuntimeError` carrying the
last error is surfaced. -/
theorem c6_retry_schedule (o₁ o₂ : ℕ → ApiOutcome) (e : ℕ → String)
    (h₁ : ∀ n, o₁ n = .fail (e n)) (h₂ : ∀ n, o₂ n = .ok []) :
    singleLlmMerge o₁ =
      ⟨.error (runtimeErrorMsg (e 8)), [1, 2, 2, 1, 2, 4, 1, 2], 9⟩ ∧
    singleLlmMerge o₂ =
      ⟨.error (runtimeErrorMsg "Invalid response from Blockify"), [2, 4], 3⟩ ∧
    ∀ o : ℕ → ApiOutcome, (singleLlmMerge o).apiCalls ≤ 9 := by
  refine ⟨?_, ?_, ?_⟩
  · simp [singleLlmMerge, mergeClusterCall, callBlockifyApi, h₁]
  · simp [singleLlmMerge, mergeClusterCall, callBlockifyApi, h₂]
  · intro o
    unfold singleLlmMerge
    have b₁ := mergeClusterCall_calls_le o 0
    rcases h₁ : mergeClusterCall o 0 with ⟨r₁, s₁, k₁⟩
    rw [h₁] at b₁
    simp only at b₁
    rcases r₁ with e₁ | c₁ <;> dsimp only
    · have b₂ := mergeClusterCall_calls_le o k₁
      rcases h₂ : mergeClusterCall o k₁ with ⟨r₂, s₂, k₂⟩
      rw [h₂] at b₂
      simp only at b₂
      rcases r₂ with e₂ | c₂ <;> dsimp only
      · have b₃ := mergeClusterCall_calls_le o k₂
        rcases h₃ : mergeClusterCall o k₂ with ⟨r₃, s₃, k₃⟩
        rw [h₃] at b₃
        simp only at b₃
        rcases r₃ with e₃ | c₃ <;> dsimp only <;> omega
      · omega
    · omega

/-- Witness for C6: the amended retry schedule at concrete oracles. -/
theorem c6_witness :
    singleLlmMerge (fun _ => .fail "x") =
      ⟨.error (runtimeErrorMsg "x"), [1, 2, 2, 1, 2, 4, 1, 2], 9⟩ ∧
    singleLlmMerge (fun _ => .ok []) =
      ⟨.error (runtimeErrorMsg "Invalid response from Blockify"), [2, 4], 3⟩ ∧
    ∀ o : ℕ → ApiOutcome, (singleLlmMerge o).apiCalls ≤ 9 :=
  c6_retry_schedule (fun _ => .fail "x") (fun _ => .ok []) (fun _ => "x")
    (fun _ => rfl) (fun _ => rfl)

/-- C2: in both job store backends, a `timeout` update on a job whose
visible status is already `success` leaves the store unchanged, and a
`success` update clears the stored intermediate snapshot (for the
filesystem backend, for any job that is still in memory, i.e. running). -/
theorem c2_store_monotonicity (sst : SqliteStore) (fst : FsStore)
    (id : String) (r : Payload) (now : ℚ) :
    ((∃ j, sst id = some j ∧ j.status = "success") →
      sqliteUpdateTimeout sst id now = sst) ∧
    sqliteGetIntermediate (sqliteUpdateSuccess sst id r now) id = none ∧
    (fsGetStatus fst id = some "success" → fsUpdateTimeout fst id now = fst) ∧
    ((fst.mem id).isSome →
      fsGetIntermediate (fsUpdateSuccess fst id r now) id = none) := by
  refine ⟨?_, ?_, ?_, ?_⟩
  · rintro ⟨j, hj, hs⟩
    unfold sqliteUpdateTimeout
    rw [hj]
    simp [hs]
  · unfold sqliteUpdateSuccess sqliteGetIntermediate
    cases h : sst id with
    | none => simp [h]
    | some j => simp [updateMap]
  · intro hs
    unfold fsUpdateTimeout
    cases h : fst.mem id with
    | none => rfl
    | some j =>
      unfold fsGetStatus at hs
      rw [h] at hs
      simp only [Option.some.injEq] at hs
      simp [hs]
  · intro hm
    obtain ⟨j, hj⟩ := Option.isSome_iff_exists.mp hm
    unfold fsUpdateSuccess fsGetIntermediate
    rw [hj]
    simp [updateMap]

/-- Witness for C2: concrete stores — a succeeded SQLite row and a
running filesystem job. -/
theorem c2_witness :
    sqliteUpdateTimeout wSqliteStore "j" 5 = wSqliteStore ∧
    sqliteGetIntermediate (sqliteUpdateSuccess wSqliteStore "j" "res" 5) "j" = none ∧
    fsGetIntermediate (fsUpdateSuccess wFsStore "j" "res" 5) "j" = none := by
  have h := c2_store_monotonicity wSqliteStore wFsStore "j" "res" 5
  exact ⟨h.1 ⟨wJobSql, by decide, by decide⟩, h.2.1, h.2.2.2 (by decide)⟩

/-- C10: every block produced by `_contents_to_blocks` for a cluster
merge — in particular when the LLM yields multiple merged blocks —
carries the identical `sourcesUsed` list, namely the identifiers of all
blocks of the input cluster (they are not distributed among the outputs),
has `hidden=false`, `exported=false`, `reviewed=false`, and gets a fresh
identifier from the `uuid` supply; with an injective supply the fresh
identifiers are pairwise distinct. -/
theorem c10_merged_blocks_uniform (gen : ℕ → String) (ctr : ℕ)
    (contents : List Content) (cluster : List Block)
    (hmulti : 2 ≤ contents.length)
    (hgen : ∀ i j, gen i = gen j → i = j) :
    (∀ b ∈ contentsToBlocks gen ctr contents cluster,
      b.sourcesUsed = some (cluster.map Block.uuid) ∧
      b.hidden = false ∧ b.exported = false ∧ b.reviewed = false) ∧
    (contentsToBlocks gen ctr contents cluster).map Block.uuid =
      (List.range contents.length).map (fun i => gen (ctr + i)) ∧
    2 ≤ (contentsToBlocks gen ctr contents cluster).length ∧
    ((contentsToBlocks gen ctr contents cluster).map Block.uuid).Nodup := by
  have hmap : (contentsToBlocks gen ctr contents cluster).map Block.uuid =
      (List.range contents.length).map (fun i => gen (ctr + i)) := by
    unfold contentsToBlocks
    rw [List.map_map]
    have : (Block.uuid ∘ fun ic : ℕ × Content =>
        ({ type := "merged", uuid := gen (ctr + ic.1), content := ic.2,
           hidden := false, exported := false, reviewed := false,
           documentUuid := if ((cluster.filterMap Block.documentUuid).head?).getD "" = ""
             then none else (cluster.filterMap Block.documentUuid).head?,
           sourcesUsed := some (cluster.map Block.uuid) } : Block)) =
        fun ic : ℕ × Content => gen (ctr + ic.1) := rfl
    rw [this, ← List.enum_map_fst contents, List.map_map]
    rfl
  refine ⟨?_, hmap, ?_, ?_⟩
  · intro b hb
    unfold contentsToBlocks at hb
    obtain ⟨ic, _, rfl⟩ := List.mem_map.mp hb
    exact ⟨rfl, rfl, rfl, rfl⟩
  · have := congrArg List.length hmap
    simp only [List.length_map, List.length_range] at this
    omega
  · rw [hmap]
    refine List.Nodup.map ?_ (List.nodup_range _)
    intro i j h
    have := hgen (ctr + i) (ctr + j) h
    omega

/-- Witness for C10: two merged contents over a two-block cluster with an
injective supply. -/
theorem c10_witness :
    (∀ b ∈ contentsToBlocks wGen 0 [⟨"m", "q", "a"⟩, ⟨"n", "q", "a"⟩]
        [mkInputBlock "blockify" "a" "a", mkInputBlock "blockify" "b" "b"],
      b.sourcesUsed = some ([mkInputBlock "blockify" "a" "a",
        mkInputBlock "blockify" "b" "b"].map Block.uuid) ∧
      b.hidden = false ∧ b.exported = false ∧ b.reviewed = false) ∧
    (contentsToBlocks wGen 0 [⟨"m", "q", "a"⟩, ⟨"n", "q", "a"⟩]
        [mkInputBlock "blockify" "a" "a",
         mkInputBlock "blockify" "b" "b"]).map Block.uuid =
      (List.range 2).map (fun i => wGen (0 + i)) ∧
    2 ≤ (contentsToBlocks wGen 0 [⟨"m", "q", "a"⟩, ⟨"n", "q", "a"⟩]
        [mkInputBlock "blockify" "a" "a",
         mkInputBlock "blockify" "b" "b"]).length ∧
    ((contentsToBlocks wGen 0 [⟨"m", "q", "a"⟩, ⟨"n", "q", "a"⟩]
        [mkInputBlock "blockify" "a" "a",
         mkInputBlock "blockify" "b" "b"]).map Block.uuid).Nodup :=
  c10_merged_blocks_uniform wGen 0 _ _ (by decide)
    (fun i j h => by
      have := congrArg (fun s : String => s.data.length) h
      simpa [wGen] using this)

/-- Membership in the upper-triangle index list. -/
theorem mem_upperIndexPairs {n i j : ℕ} :
    (i, j) ∈ upperIndexPairs n ↔ i < j ∧ j < n := by
  unfold upperIndexPairs
  simp only [List.mem_flatMap, List.mem_range, List.mem_map, List.mem_range'_1,
    Prod.mk.injEq]
  constructor
  · rintro ⟨a, ha, b, ⟨hb₁, hb₂⟩, rfl, rfl⟩
    omega
  · rintro ⟨hij, hj⟩
    exact ⟨i, by omega, j, ⟨by omega, by omega⟩, rfl, rfl⟩

/-- The upper-triangle index list has no duplicates. -/
theorem upperIndexPairs_nodup (n : ℕ) : (upperIndexPairs n).Nodup := by
  unfold upperIndexPairs
  rw [List.flatMap_def]
  refine List.nodup_flatten.mpr ⟨?_, ?_⟩
  · intro l hl
    obtain ⟨i, _, rfl⟩ := List.mem_map.mp hl
    rw [List.range'_eq_map_range, List.map_map]
    refine (List.nodup_range _).map ?_
    intro a b h
    have h2 := congrArg Prod.snd h
    simp only [Function.comp_apply] at h2
    omega
  · rw [List.pairwise_map]
    refine List.Pairwise.imp_of_mem ?_ (List.pairwise_lt_range n)
    intro a b _ _ hab x hx hy
    obtain ⟨j₁, _, rfl⟩ := List.mem_map.mp hx
    obtain ⟨j₂, _, h⟩ := List.mem_map.mp hy
    exact absurd (congrArg Prod.fst h).symm (by simpa using hab.ne)

/-- The dense scan is empty on fewer than two rows. -/
theorem densePairsUnsorted_short {V : List Vec} (θ : ℚ) (h : V.length < 2) :
    densePairsUnsorted V θ = [] := by
  rcases V with _ | ⟨a, _ | ⟨b, t⟩⟩
  · rfl
  · rfl
  · simp only [List.length_cons] at h
    omega

/-- Membership characterisation of the unsorted dense pair scan. -/
theorem mem_densePairsUnsorted {V : List Vec} {θ : ℚ} {i j : ℕ} {s : ℚ} :
    (i, j, s) ∈ densePairsUnsorted V θ ↔
      i < j ∧ j < V.length ∧ θ ≤ s ∧
        s = cosineSim (V.getD i []) (V.getD j []) := by
  unfold densePairsUnsorted
  simp only [List.mem_flatMap, List.mem_range, List.mem_filterMap,
    List.mem_range'_1]
  constructor
  · rintro ⟨a, ha, b, ⟨hb₁, hb₂⟩, hif⟩
    split at hif
    · rcases hif with ⟨rfl, rfl, rfl⟩
      exact ⟨by omega, by omega, by assumption, rfl⟩
    · exact absurd hif (by simp)
  · rintro ⟨hij, hj, hθ, rfl⟩
    exact ⟨i, by omega, j, ⟨by omega, by omega⟩, by rw [if_pos hθ]⟩

/-- The sorted dense output is a permutation of the unsorted scan. -/
theorem findSimilarPairsDense_perm (V : List Vec) (θ : ℚ) :
    (findSimilarPairsDense V θ).Perm (densePairsUnsorted V θ) := by
  unfold findSimilarPairsDense
  split
  · rename_i h
    rw [densePairsUnsorted_short θ h]
  · exact List.perm_insertionSort simGE _

/-- Membership characterisation of `find_similar_pairs_dense`
(soundness and completeness). -/
theorem mem_findSimilarPairsDense {V : List Vec} {θ : ℚ} {i j : ℕ} {s : ℚ} :
    (i, j, s) ∈ findSimilarPairsDense V θ ↔
      i < j ∧ j < V.length ∧ θ ≤ s ∧
        s = cosineSim (V.getD i []) (V.getD j []) := by
  rw [(findSimilarPairsDense_perm V θ).mem_iff]
  exact mem_densePairsUnsorted

/-- Soundness of the LSH-filtered output. -/
theorem mem_findSimilarPairsWithLsh {tables : List (List Vec)} {V : List Vec}
    {θ : ℚ} {i j : ℕ} {s : ℚ}
    (h : (i, j, s) ∈ findSimilarPairsWithLsh tables V θ) :
    i < j ∧ j < V.length ∧ θ ≤ s ∧
      s = cosineSim (V.getD i []) (V.getD j []) := by
  unfold findSimilarPairsWithLsh at h
  split at h
  · exact mem_findSimilarPairsDense.mp h
  · obtain ⟨p, hp, hif⟩ := List.mem_filterMap.mp h
    obtain ⟨p₁, p₂⟩ := p
    unfold lshCandidatePairs at hp
    have hmem := mem_upperIndexPairs.mp (List.mem_of_mem_filter hp)
    dsimp only at hif
    split at hif
    · rcases hif with ⟨rfl, rfl, rfl⟩
      exact ⟨hmem.1, hmem.2, by assumption, rfl⟩
    · exact absurd hif (by simp)

/-- Filtering distributes over `flatMap`. -/
theorem filter_flatMap (l : List α) (f : α → List β) (p : β → Bool) :
    ((l.flatMap f).filter p) = l.flatMap fun a => (f a).filter p := by
  induction l with
  | nil => rfl
  | cons a t ih => simp only [List.flatMap_cons, List.filter_append, ih]

/-- Index projection of one inner row of the threshold scan, for an
arbitrary similarity function. -/
theorem innerProjGen (g : ℕ × ℕ → ℚ) (θ : ℚ) (i : ℕ) (L : List ℕ) :
    ((L.filterMap fun j =>
        let s := g (i, j);
        if θ ≤ s then some (i, j, s) else none).map fun t => (t.1, t.2.1)) =
      (L.map fun j => (i, j)).filter fun p => θ ≤ g p := by
  induction L with
  | nil => rfl
  | cons a t ih =>
    by_cases h : θ ≤ g (i, a)
    · simp [List.filterMap_cons, List.filter_cons, h, ih]
    · simp [List.filterMap_cons, List.filter_cons, h, ih]

/-- Index projection of the whole threshold scan over a row list. -/
theorem projFlatMapGen (g : ℕ × ℕ → ℚ) (θ : ℚ) (n : ℕ) (L : List ℕ) :
    ((L.flatMap fun i =>
        (List.range' (i + 1) (n - (i + 1))).filterMap fun j =>
          let s := g (i, j);
          if θ ≤ s then some (i, j, s) else none).map fun t => (t.1, t.2.1)) =
      (L.flatMap fun i =>
        (List.range' (i + 1) (n - (i + 1))).map fun j => (i, j)).filter
          fun p => θ ≤ g p := by
  induction L with
  | nil => rfl
  | cons a t ih =>
    rw [List.flatMap_cons, List.flatMap_cons, List.map_append,
      List.filter_append, ih, innerProjGen]

/-- The index-pair projection of the unsorted dense scan is a filter of
the upper triangle, hence duplicate-free. -/
theorem densePairsUnsorted_proj_nodup (V : List Vec) (θ : ℚ) :
    ((densePairsUnsorted V θ).map fun t => (t.1, t.2.1)).Nodup := by
  have proj_eq : ((densePairsUnsorted V θ).map fun t => (t.1, t.2.1)) =
      (upperIndexPairs V.length).filter
        fun p => θ ≤ cosineSim (V.getD p.1 []) (V.getD p.2 []) :=
    projFlatMapGen (fun p => cosineSim (V.getD p.1 []) (V.getD p.2 [])) θ
      V.length (List.range V.length)
  rw [proj_eq]
  exact (upperIndexPairs_nodup V.length).filter _

/-- The index-pair projection of the dense output is duplicate-free: no
unordered pair occurs twice. -/
theorem findSimilarPairsDense_proj_nodup (V : List Vec) (θ : ℚ) :
    ((findSimilarPairsDense V θ).map fun t => (t.1, t.2.1)).Nodup := by
  rw [((findSimilarPairsDense_perm V θ).map fun t => (t.1, t.2.1)).nodup_iff]
  exact densePairsUnsorted_proj_nodup V θ

/-- Index projection of the LSH verification stage, for an arbitrary
similarity function. -/
theorem lshProjGen (g : ℕ × ℕ → ℚ) (θ : ℚ) (L : List (ℕ × ℕ)) :
    ((L.filterMap fun p =>
        let s := g p;
        if θ ≤ s then some (p.1, p.2, s) else none).map fun t => (t.1, t.2.1)) =
      L.filter fun p => θ ≤ g p := by
  induction L with
  | nil => rfl
  | cons a t ih =>
    by_cases h : θ ≤ g a
    · simp [List.filterMap_cons, List.filter_cons, h, ih]
    · simp [List.filterMap_cons, List.filter_cons, h, ih]

/-- The index-pair projection of the LSH output is duplicate-free. -/
theorem findSimilarPairsWithLsh_proj_nodup (tables : List (List Vec))
    (V : List Vec) (θ : ℚ) :
    ((findSimilarPairsWithLsh tables V θ).map fun t => (t.1, t.2.1)).Nodup := by
  unfold findSimilarPairsWithLsh
  split
  · exact findSimilarPairsDense_proj_nodup V θ
  · have proj_eq : (((lshCandidatePairs tables V).filterMap fun p =>
        let s := cosineSim (V.getD p.1 []) (V.getD p.2 []);
        if θ ≤ s then some (p.1, p.2, s) else none).map fun t => (t.1, t.2.1)) =
        (lshCandidatePairs tables V).filter
          fun p => θ ≤ cosineSim (V.getD p.1 []) (V.getD p.2 []) :=
      lshProjGen (fun p => cosineSim (V.getD p.1 []) (V.getD p.2 [])) θ _
    rw [proj_eq]
    unfold lshCandidatePairs
    exact ((upperIndexPairs_nodup V.length).filter _).filter _

unseal Rat.add Rat.mul Rat.sub Rat.inv in
/-- C4 counterexample: on the 50-vector input `cexVLsh` (with hyperplane
tables making every pair a candidate), `find_similar_pairs_with_lsh`
returns `(0,1,3/5)` before `(0,2,1)` — the LSH-filtered strategy performs
no sort, so its output is not in descending order of similarity. -/
theorem c4_counterexample :
    ¬ (findSimilarPairsWithLsh cexTables cexVLsh (1/2)).Sorted simGE := by
  intro hs
  have ht : (findSimilarPairsWithLsh cexTables cexVLsh (1/2)).take 2 =
      [(0, 1, 3/5), (0, 2, 1)] := by decide
  have hsplit := List.take_append_drop 2 (findSimilarPairsWithLsh cexTables cexVLsh (1/2))
  rw [ht] at hsplit
  rw [← hsplit] at hs
  simp only [List.cons_append, List.nil_append] at hs
  have h01 := (List.sorted_cons.mp hs).1 (0, 2, 1) (by simp)
  have h1 : (1 : ℚ) ≤ 3/5 := h01
  norm_num at h1

/-- C4 (amended): the dense strategy returns its pairs sorted in
descending order of the similarity component; the LSH-filtered strategy
returns verified candidates unsorted and agrees with the dense strategy
only when it delegates to it (fewer than `MIN_ITEMS_TO_ENABLE_LSH`
vectors). -/
theorem c4_pair_ordering (tables : List (List Vec)) (V : List Vec) (θ : ℚ) :
    (findSimilarPairsDense V θ).Sorted simGE ∧
    (V.length < minItemsToEnableLsh →
      findSimilarPairsWithLsh tables V θ = findSimilarPairsDense V θ) := by
  constructor
  · unfold findSimilarPairsDense
    split
    · exact List.sorted_nil
    · exact List.sorted_insertionSort simGE _
  · intro h
    unfold findSimilarPairsWithLsh
    rw [if_pos h]

/-- Witness for C4: the amended ordering statement at a one-vector
input. -/
theorem c4_witness :
    (findSimilarPairsDense [[1, 0]] 0).Sorted simGE ∧
    findSimilarPairsWithLsh [] [[1, 0]] 0 = findSimilarPairsDense [[1, 0]] 0 :=
  ⟨(c4_pair_ordering [] [[1, 0]] 0).1,
   (c4_pair_ordering [] [[1, 0]] 0).2 (by decide)⟩

/-- C7: every triple `(i, j, s)` returned by the similarity index
satisfies `i < j < |V|`, `s ≥ θ`, and `s` is the cosine similarity of
`V[i]` and `V[j]`; no index pair occurs twice; and the dense strategy
additionally returns *every* such pair (completeness, stated as an
equivalence). -/
theorem c7_pair_contract (tables : List (List Vec)) (V : List Vec) (θ : ℚ) :
    (∀ i j s, (i, j, s) ∈ findSimilarPairsDense V θ ↔
      (i < j ∧ j < V.length ∧ θ ≤ s ∧
        s = cosineSim (V.getD i []) (V.getD j []))) ∧
    (∀ i j s, (i, j, s) ∈ findSimilarPairsWithLsh tables V θ →
      i < j ∧ j < V.length ∧ θ ≤ s ∧
        s = cosineSim (V.getD i []) (V.getD j [])) ∧
    ((findSimilarPairsDense V θ).map fun t => (t.1, t.2.1)).Nodup ∧
    ((findSimilarPairsWithLsh tables V θ).map fun t => (t.1, t.2.1)).Nodup :=
  ⟨fun _ _ _ => mem_findSimilarPairsDense,
   fun _ _ _ h => mem_findSimilarPairsWithLsh h,
   findSimilarPairsDense_proj_nodup V θ,
   findSimilarPairsWithLsh_proj_nodup tables V θ⟩

unseal Rat.add Rat.mul Rat.sub Rat.inv in
/-- Witness for C7: completeness instantiated on three concrete unit
vectors produces the pair (0, 2) with similarity 1. -/
theorem c7_witness :
    (0, 2, (1 : ℚ)) ∈ findSimilarPairsDense [[1, 0], [0, 1], [1, 0]] (1/2) :=
  ((c7_pair_contract [] [[1, 0], [0, 1], [1, 0]] (1/2)).1 0 2 1).mpr (by decide)

/-- Facts about `pow2`: agreement with `zpow` (signed powers). -/
theorem pow2_eq_zpow (e : ℤ) : pow2 e = (2 : ℚ) ^ e := by
  unfold pow2
  split
  · rename_i h
    rw [Nat.cast_pow, Nat.cast_ofNat, ← zpow_natCast (2:ℚ) e.toNat,
      Int.toNat_of_nonneg h]
  · rename_i h
    rw [Nat.cast_pow, Nat.cast_ofNat, one_div, ← zpow_natCast (2:ℚ) (-e).toNat,
      Int.toNat_of_nonneg (by omega : (0:ℤ) ≤ -e), ← zpow_neg, neg_neg]

/-- Positivity of `pow2`. -/
theorem pow2_pos (e : ℤ) : 0 < pow2 e := by
  unfold pow2
  split
  · exact_mod_cast Nat.two_pow_pos _
  · exact one_div_pos.mpr (by exact_mod_cast Nat.two_pow_pos _)

/-- Additivity of `pow2` in the exponent. -/
theorem pow2_add (a b : ℤ) : pow2 (a + b) = pow2 a * pow2 b := by
  rw [pow2_eq_zpow, pow2_eq_zpow, pow2_eq_zpow]
  exact zpow_add₀ (by norm_num) a b

/-- Value of `pow2` at zero. -/
theorem pow2_zero : pow2 0 = 1 := by norm_num [pow2]

/-- Value of `pow2` at one. -/
theorem pow2_one : pow2 1 = 2 := by norm_num [pow2]

/-- Non-negative exponents give values at least one. -/
theorem pow2_ge_one {e : ℤ} (h : 0 ≤ e) : 1 ≤ pow2 e := by
  unfold pow2
  rw [if_pos h]
  exact_mod_cast Nat.one_le_two_pow

/-- Monotonicity of `pow2`. -/
theorem pow2_le_pow2 {a b : ℤ} (h : a ≤ b) : pow2 a ≤ pow2 b := by
  have hb : pow2 b = pow2 a * pow2 (b - a) := by rw [← pow2_add]; congr 1; ring
  rw [hb]
  nth_rewrite 1 [← mul_one (pow2 a)]
  exact mul_le_mul_of_nonneg_left (pow2_ge_one (by omega)) (pow2_pos a).le

/-- Strict monotonicity of `pow2`. -/
theorem pow2_lt_pow2 {a b : ℤ} (h : a < b) : pow2 a < pow2 b := by
  have h2 : pow2 (a + 1) ≤ pow2 b := pow2_le_pow2 (by omega)
  have h3 : pow2 (a + 1) = 2 * pow2 a := by
    rw [show a + 1 = 1 + a by ring, pow2_add, pow2_one]
  have := pow2_pos a
  linarith

/-- Natural exponents agree with natural powers. -/
theorem pow2_natCast (t : ℕ) : pow2 (t : ℤ) = ((2 ^ t : ℕ) : ℚ) := by
  unfold pow2
  rw [if_pos (by omega), Int.toNat_natCast]

/-- Negated exponents give reciprocals. -/
theorem pow2_neg_eq (a : ℤ) : pow2 (-a) = 1 / pow2 a := by
  rw [eq_div_iff (pow2_pos a).ne', ← pow2_add, show -a + a = 0 by ring, pow2_zero]

/-- Alternative form of `pow2` on non-negative exponents. -/
theorem pow2_of_nonneg {e : ℤ} (h : 0 ≤ e) : pow2 e = (2:ℚ) ^ e.toNat := by
  unfold pow2
  rw [if_pos h]
  push_cast
  ring

/-- Rounding to nearest never drops below half a unit. -/
theorem rne_ge (q : ℚ) : q - 1/2 ≤ (roundNearestEven q : ℚ) := by
  have hf : (⌊q⌋ : ℚ) ≤ q := Int.floor_le q
  have hf2 : q < ⌊q⌋ + 1 := Int.lt_floor_add_one q
  unfold roundNearestEven
  split
  · rename_i h1
    linarith
  · rename_i h1
    split
    · push_cast; linarith
    · split <;> push_cast <;> linarith

/-- Rounding to nearest never exceeds half a unit. -/
theorem rne_le (q : ℚ) : (roundNearestEven q : ℚ) ≤ q + 1/2 := by
  have hf : (⌊q⌋ : ℚ) ≤ q := Int.floor_le q
  have hf2 : q < ⌊q⌋ + 1 := Int.lt_floor_add_one q
  unfold roundNearestEven
  split
  · rename_i h1
    linarith
  · rename_i h1
    push_neg at h1
    split
    · rename_i h2; push_cast; linarith
    · rename_i h2
      push_neg at h2
      have : q - ⌊q⌋ = 1/2 := le_antisymm h2 h1
      split <;> push_cast <;> linarith

/-- Integers round to themselves. -/
theorem rne_intCast (m : ℤ) : roundNearestEven (m : ℚ) = m := by
  unfold roundNearestEven
  rw [Int.floor_intCast, sub_self, if_pos (by norm_num)]

/-- Round-to-nearest-even is monotone. -/
theorem rne_mono {x y : ℚ} (h : x ≤ y) :
    roundNearestEven x ≤ roundNearestEven y := by
  by_contra hlt
  push_neg at hlt
  have h1 := rne_le x
  have h2 := rne_ge y
  have h3 : (roundNearestEven y : ℚ) + 1 ≤ (roundNearestEven x : ℚ) := by
    exact_mod_cast Int.add_one_le_iff.mpr hlt
  have hyx : y ≤ x := by linarith
  have hxy : x = y := le_antisymm h hyx
  rw [hxy] at hlt
  exact absurd hlt (lt_irrefl _)

/-- A fold that replaces the accumulator on matching elements keeps a
fixed point when every matching element maps to it. -/
theorem foldl_pick_const {p : ℕ → Prop} [DecidablePred p] (g : ℕ → ℤ)
    (L : List ℕ) (a : ℤ) (h : ∀ b ∈ L, p b → g b = a) :
    L.foldl (fun acc e => if p e then g e else acc) a = a := by
  induction L with
  | nil => rfl
  | cons x t ih =>
    simp only [List.foldl_cons]
    by_cases hx : p x
    · rw [if_pos hx, h x (List.mem_cons_self _ _) hx]
      exact ih fun b hb => h b (List.mem_cons_of_mem _ hb)
    · rw [if_neg hx]
      exact ih fun b hb => h b (List.mem_cons_of_mem _ hb)

/-- A fold that replaces the accumulator on matching elements computes
the common image of the matching elements, as soon as one exists. -/
theorem foldl_pick_unique {p : ℕ → Prop} [DecidablePred p] (g : ℕ → ℤ)
    (L : List ℕ) (a d : ℤ) (j0 : ℕ) (hj : j0 ∈ L) (hpj : p j0)
    (huniq : ∀ b ∈ L, p b → g b = a) :
    L.foldl (fun acc e => if p e then g e else acc) d = a := by
  induction L generalizing d with
  | nil => cases hj
  | cons x t ih =>
    simp only [List.foldl_cons]
    by_cases hx : p x
    · rw [if_pos hx, huniq x (List.mem_cons_self _ _) hx]
      exact foldl_pick_const g t a fun b hb => huniq b (List.mem_cons_of_mem _ hb)
    · rw [if_neg hx]
      have hj' : j0 ∈ t := by
        rcases List.mem_cons.mp hj with heq | h'
        · exact absurd (heq ▸ hpj) hx
        · exact h'
      exact ih d hj' fun b hb => huniq b (List.mem_cons_of_mem _ hb)

/-- The binade search returns the exponent of any enclosing dyadic
interval inside the window. -/
theorem flExp_eq {a : ℤ} {q : ℚ} (h1 : -80 ≤ a) (h2 : a ≤ 80)
    (h3 : pow2 a ≤ q) (h4 : q < pow2 (a + 1)) : flExp q = a := by
  unfold flExp
  have hj0 : ((a + 80).toNat : ℤ) - 80 = a := by omega
  refine foldl_pick_unique
    (p := fun j => pow2 ((j : ℤ) - 80) ≤ q ∧ q < pow2 ((j : ℤ) - 80 + 1))
    (g := fun j => (j : ℤ) - 80) (List.range 161) a 0 (a + 80).toNat
    (List.mem_range.mpr (by omega)) ?_ ?_
  · show pow2 (((a + 80).toNat : ℤ) - 80) ≤ q ∧
      q < pow2 (((a + 80).toNat : ℤ) - 80 + 1)
    rw [hj0]
    exact ⟨h3, h4⟩
  · rintro b _ ⟨hb1, hb2⟩
    show (b : ℤ) - 80 = a
    by_contra hne
    rcases lt_or_gt_of_ne hne with hlt | hgt
    · have : pow2 ((b : ℤ) - 80 + 1) ≤ pow2 a := pow2_le_pow2 (by omega)
      linarith
    · have : pow2 (a + 1) ≤ pow2 ((b : ℤ) - 80) := pow2_le_pow2 (by omega)
      linarith

/-- Every value in the window lies in a dyadic interval `[2^a, 2^(a+1))`
with `a` in the window. -/
theorem exists_binade {x : ℚ} (h1 : pow2 (-80) ≤ x) (h2 : x < pow2 80) :
    ∃ a : ℤ, -80 ≤ a ∧ a ≤ 79 ∧ pow2 a ≤ x ∧ x < pow2 (a + 1) := by
  have hx : 0 < x := lt_of_lt_of_le (pow2_pos _) h1
  have hlow := Int.zpow_log_le_self (b := 2) (R := ℚ) (by norm_num) hx
  have hhigh := Int.lt_zpow_succ_log_self (b := 2) (R := ℚ) (by norm_num) x
  have hc : ((2 : ℕ) : ℚ) = (2 : ℚ) := by norm_num
  rw [hc] at hlow hhigh
  rw [← pow2_eq_zpow] at hlow hhigh
  refine ⟨Int.log 2 x, ?_, ?_, hlow, hhigh⟩
  · by_contra hneg
    have : pow2 (Int.log 2 x + 1) ≤ pow2 (-80) := pow2_le_pow2 (by omega)
    linarith
  · by_contra hbig
    have : pow2 80 ≤ pow2 (Int.log 2 x) := pow2_le_pow2 (by omega)
    linarith

/-- On its binade, `fl64` is the rounded scaled significand. -/
theorem fl64_eq_of_binade {x : ℚ} {a : ℤ} (h1 : -80 ≤ a) (h2 : a ≤ 80)
    (h3 : pow2 a ≤ x) (h4 : x < pow2 (a + 1)) :
    fl64 x = (roundNearestEven (x / pow2 (a - 52)) : ℚ) * pow2 (a - 52) := by
  have hx : 0 < x := lt_of_lt_of_le (pow2_pos a) h3
  unfold fl64
  rw [if_neg (not_le.mpr hx), flExp_eq h1 h2 h3 h4]

/-- Half-ulp error bound of binary64 rounding, in relative form. -/
theorem fl64_err {x : ℚ} {a : ℤ} (h1 : -80 ≤ a) (h2 : a ≤ 80)
    (h3 : pow2 a ≤ x) (h4 : x < pow2 (a + 1)) :
    x - x * pow2 (-53) ≤ fl64 x ∧ fl64 x ≤ x + x * pow2 (-53) := by
  rw [fl64_eq_of_binade h1 h2 h3 h4]
  have hp : (0:ℚ) < pow2 (a - 52) := pow2_pos _
  have hb1 := rne_ge (x / pow2 (a - 52))
  have hb2 := rne_le (x / pow2 (a - 52))
  have hxm : x / pow2 (a - 52) * pow2 (a - 52) = x := div_mul_cancel₀ x hp.ne'
  have hsplit : (1:ℚ)/2 * pow2 (a - 52) = pow2 a * pow2 (-53) := by
    rw [← pow2_add]
    have : pow2 (a - 52) = pow2 1 * pow2 (a + -53) := by
      rw [← pow2_add]; congr 1; ring
    rw [this, pow2_one]; ring
  have hbound : pow2 a * pow2 (-53) ≤ x * pow2 (-53) :=
    mul_le_mul_of_nonneg_right h3 (pow2_pos _).le
  constructor
  · have hm := mul_le_mul_of_nonneg_right hb1 hp.le
    rw [sub_mul, hxm] at hm
    linarith
  · have hm := mul_le_mul_of_nonneg_right hb2 hp.le
    rw [add_mul, hxm] at hm
    linarith

/-- Rounded values do not drop below the binade's lower endpoint. -/
theorem fl64_ge_binade {x : ℚ} {a : ℤ} (h1 : -80 ≤ a) (h2 : a ≤ 80)
    (h3 : pow2 a ≤ x) (h4 : x < pow2 (a + 1)) : pow2 a ≤ fl64 x := by
  rw [fl64_eq_of_binade h1 h2 h3 h4]
  have hp : (0:ℚ) < pow2 (a - 52) := pow2_pos _
  have hpa : ((2 ^ 52 : ℤ) : ℚ) * pow2 (a - 52) = pow2 a := by
    have h52 : ((2 ^ 52 : ℤ) : ℚ) = pow2 (52 : ℤ) := by
      rw [show ((52 : ℤ)) = ((52 : ℕ) : ℤ) by norm_num, pow2_natCast]
      push_cast; ring
    rw [h52, ← pow2_add]; congr 1; ring
  have hm : ((2 ^ 52 : ℤ) : ℚ) ≤ x / pow2 (a - 52) := by
    rw [le_div_iff₀ hp, hpa]
    exact h3
  have hint : (2 ^ 52 : ℤ) ≤ roundNearestEven (x / pow2 (a - 52)) := by
    have hg := rne_ge (x / pow2 (a - 52))
    have hlt : ((2 ^ 52 : ℤ) : ℚ) - 1 <
        (roundNearestEven (x / pow2 (a - 52)) : ℚ) := by linarith
    have : (2 ^ 52 : ℤ) - 1 < roundNearestEven (x / pow2 (a - 52)) := by
      exact_mod_cast hlt
    omega
  calc pow2 a = ((2 ^ 52 : ℤ) : ℚ) * pow2 (a - 52) := hpa.symm
    _ ≤ (roundNearestEven (x / pow2 (a - 52)) : ℚ) * pow2 (a - 52) :=
        mul_le_mul_of_nonneg_right (by exact_mod_cast hint) hp.le

/-- Rounded values do not exceed the binade's upper endpoint. -/
theorem fl64_le_binade {x : ℚ} {a : ℤ} (h1 : -80 ≤ a) (h2 : a ≤ 80)
    (h3 : pow2 a ≤ x) (h4 : x < pow2 (a + 1)) : fl64 x ≤ pow2 (a + 1) := by
  rw [fl64_eq_of_binade h1 h2 h3 h4]
  have hp : (0:ℚ) < pow2 (a - 52) := pow2_pos _
  have hpa : ((2 ^ 53 : ℤ) : ℚ) * pow2 (a - 52) = pow2 (a + 1) := by
    have h53 : ((2 ^ 53 : ℤ) : ℚ) = pow2 (53 : ℤ) := by
      rw [show ((53 : ℤ)) = ((53 : ℕ) : ℤ) by norm_num, pow2_natCast]
      push_cast; ring
    rw [h53, ← pow2_add]; congr 1; ring
  have hm : x / pow2 (a - 52) < ((2 ^ 53 : ℤ) : ℚ) := by
    rw [div_lt_iff₀ hp, hpa]
    exact h4
  have hint : roundNearestEven (x / pow2 (a - 52)) ≤ 2 ^ 53 := by
    have hl := rne_le (x / pow2 (a - 52))
    have hlt : (roundNearestEven (x / pow2 (a - 52)) : ℚ) <
        ((2 ^ 53 : ℤ) : ℚ) + 1 := by linarith
    have : roundNearestEven (x / pow2 (a - 52)) < (2 ^ 53 : ℤ) + 1 := by
      exact_mod_cast hlt
    omega
  calc (roundNearestEven (x / pow2 (a - 52)) : ℚ) * pow2 (a - 52)
      ≤ ((2 ^ 53 : ℤ) : ℚ) * pow2 (a - 52) :=
        mul_le_mul_of_nonneg_right (by exact_mod_cast hint) hp.le
    _ = pow2 (a + 1) := hpa

/-- Half-ulp error bound without naming the binade. -/
theorem fl64_rel {x : ℚ} (h1 : pow2 (-80) ≤ x) (h2 : x < pow2 80) :
    x - x * pow2 (-53) ≤ fl64 x ∧ fl64 x ≤ x + x * pow2 (-53) := by
  obtain ⟨a, ha1, ha2, ha3, ha4⟩ := exists_binade h1 h2
  exact fl64_err ha1 (by omega) ha3 ha4

/-- Zero rounds to zero. -/
theorem fl64_zero : fl64 0 = 0 := by
  unfold fl64
  rw [if_pos le_rfl]

/-- Binary64 rounding is monotone on the window. -/
theorem fl64_mono {x y : ℚ} (hx : pow2 (-80) ≤ x) (hxy : x ≤ y)
    (hy : y < pow2 80) : fl64 x ≤ fl64 y := by
  obtain ⟨a, ha1, ha2, ha3, ha4⟩ := exists_binade hx (lt_of_le_of_lt hxy hy)
  obtain ⟨b, hb1, hb2, hb3, hb4⟩ := exists_binade (le_trans hx hxy) hy
  rcases lt_trichotomy a b with hab | rfl | hab
  · calc fl64 x ≤ pow2 (a + 1) := fl64_le_binade ha1 (by omega) ha3 ha4
      _ ≤ pow2 b := pow2_le_pow2 (by omega)
      _ ≤ fl64 y := fl64_ge_binade hb1 (by omega) hb3 hb4
  · rw [fl64_eq_of_binade ha1 (by omega) ha3 ha4,
      fl64_eq_of_binade ha1 (by omega) hb3 hb4]
    have hp : (0:ℚ) < pow2 (a - 52) := pow2_pos _
    have hm : x / pow2 (a - 52) ≤ y / pow2 (a - 52) := by
      rw [div_le_div_iff₀ hp hp]
      exact mul_le_mul_of_nonneg_right hxy hp.le
    exact mul_le_mul_of_nonneg_right (by exact_mod_cast rne_mono hm) hp.le
  · exfalso
    have : pow2 (b + 1) ≤ pow2 a := pow2_le_pow2 (by omega)
    linarith

/-- One is exactly representable (`k/k` divides to the double `1.0`). -/
theorem fl64_one : fl64 1 = 1 := by
  rw [fl64_eq_of_binade (x := 1) (a := 0) (by norm_num) (by norm_num)
    (le_of_eq pow2_zero) (by rw [zero_add, pow2_one]; norm_num)]
  have h52 : ((2 ^ 52 : ℤ) : ℚ) = pow2 (52:ℤ) := by
    rw [show ((52:ℤ)) = ((52:ℕ):ℤ) by norm_num, pow2_natCast]
    push_cast; ring
  have hq : (1 : ℚ) / pow2 (0 - 52) = ((2 ^ 52 : ℤ) : ℚ) := by
    rw [div_eq_iff (pow2_pos _).ne', h52, ← pow2_add,
      show (52 : ℤ) + (0 - 52) = 0 by ring, pow2_zero]
  rw [hq, rne_intCast, h52, ← pow2_add, show (52 : ℤ) + (0 - 52) = 0 by ring,
    pow2_zero]

/-- Integers below `2^53` are exactly representable. -/
theorem fl64_natCast (n : ℕ) (h1 : 1 ≤ n) (h2 : n < 2 ^ 53) :
    fl64 (n : ℚ) = n := by
  have hlo : pow2 (-80) ≤ (n : ℚ) := by
    calc pow2 (-80) ≤ pow2 0 := pow2_le_pow2 (by omega)
      _ = 1 := pow2_zero
      _ ≤ (n : ℚ) := by exact_mod_cast h1
  have hhi : (n : ℚ) < pow2 80 := by
    rw [show ((80:ℤ)) = ((80:ℕ):ℤ) by norm_num, pow2_natCast]
    exact_mod_cast lt_of_lt_of_le h2 (by norm_num)
  obtain ⟨a, ha1, ha2, ha3, ha4⟩ := exists_binade hlo hhi
  have ha0 : 0 ≤ a := by
    by_contra hneg
    have hle : pow2 (a + 1) ≤ pow2 0 := pow2_le_pow2 (by omega)
    rw [pow2_zero] at hle
    have : (1 : ℚ) ≤ (n : ℚ) := by exact_mod_cast h1
    linarith
  have ha52 : a ≤ 52 := by
    by_contra hgt
    have hle : pow2 (53:ℤ) ≤ pow2 a := pow2_le_pow2 (by omega)
    have h53 : pow2 (53:ℤ) = ((2 ^ 53 : ℕ) : ℚ) := by
      rw [show ((53:ℤ)) = ((53:ℕ):ℤ) by norm_num, pow2_natCast]
    have : (n:ℚ) < ((2 ^ 53:ℕ):ℚ) := by exact_mod_cast h2
    linarith
  rw [fl64_eq_of_binade ha1 (by omega) ha3 ha4]
  have hint : (n : ℚ) / pow2 (a - 52) = ((n * 2 ^ (52 - a).toNat : ℕ) : ℚ) := by
    rw [div_eq_iff (pow2_pos _).ne']
    push_cast
    rw [← pow2_of_nonneg (show (0:ℤ) ≤ 52 - a by omega), mul_assoc, ← pow2_add,
      show (52 - a) + (a - 52) = 0 by ring, pow2_zero, mul_one]
  rw [hint]
  rw [show ((n * 2 ^ (52 - a).toNat : ℕ) : ℚ) =
    (((n * 2 ^ (52 - a).toNat : ℕ) : ℤ) : ℚ) by push_cast; ring]
  rw [rne_intCast]
  push_cast
  rw [← pow2_of_nonneg (show (0:ℤ) ≤ 52 - a by omega), mul_assoc, ← pow2_add,
    show (52 - a) + (a - 52) = 0 by ring, pow2_zero, mul_one]

/-- Cast form of the size bound on clusters. -/
theorem natCast_le_pow2_forty {n : ℕ} (hn : n ≤ 2 ^ 40) : (n : ℚ) ≤ pow2 40 := by
  rw [show ((40:ℤ)) = ((40:ℕ):ℤ) by norm_num, pow2_natCast]
  exact_mod_cast hn

/-- The quotient `i/k` and the product `fl64(i/k)·n` both lie inside the
binade window whenever `1 ≤ i ≤ k ≤ n ≤ 2^40`. -/
theorem slice_windows {i k n : ℕ} (hi1 : 1 ≤ i) (hik : i ≤ k) (hk1 : 1 ≤ k)
    (hkn : k ≤ n) (hn : n ≤ 2 ^ 40) :
    pow2 (-80) ≤ (i : ℚ) / k ∧ (i : ℚ) / k < pow2 80 ∧
    pow2 (-80) ≤ fl64 ((i : ℚ) / k) * n ∧ fl64 ((i : ℚ) / k) * n < pow2 80 := by
  have hk0 : (0:ℚ) < k := by exact_mod_cast (by omega : 0 < k)
  have hn0 : (0:ℚ) < n := by exact_mod_cast (by omega : 0 < n)
  have hknq : (k:ℚ) ≤ n := by exact_mod_cast hkn
  have hiq : (1:ℚ) ≤ i := by exact_mod_cast hi1
  have hikq : (i:ℚ) ≤ k := by exact_mod_cast hik
  have hx_lo : 1 / (n:ℚ) ≤ (i:ℚ) / k := by
    calc 1 / (n:ℚ) ≤ 1 / (k:ℚ) := one_div_le_one_div_of_le hk0 hknq
      _ ≤ (i:ℚ) / k := by
          rw [div_le_div_iff₀ hk0 hk0]
          exact mul_le_mul_of_nonneg_right hiq hk0.le
  have hinv : pow2 (-40) ≤ 1 / (n:ℚ) := by
    rw [pow2_neg_eq]
    exact one_div_le_one_div_of_le hn0 (natCast_le_pow2_forty hn)
  have hw1 : pow2 (-80) ≤ (i:ℚ) / k :=
    le_trans (le_trans (pow2_le_pow2 (by omega)) hinv) hx_lo
  have hx_hi : (i:ℚ) / k ≤ 1 := by
    rw [div_le_one hk0]
    exact hikq
  have hone : (1:ℚ) < pow2 80 := by
    calc (1:ℚ) = pow2 0 := pow2_zero.symm
      _ < pow2 80 := pow2_lt_pow2 (by omega)
  have hw2 : (i:ℚ) / k < pow2 80 := lt_of_le_of_lt hx_hi hone
  obtain ⟨hf_lo, hf_hi⟩ := fl64_rel hw1 hw2
  have hδpos : (0:ℚ) < pow2 (-53) := pow2_pos _
  have hδhalf : pow2 (-53) ≤ 1/2 := by
    calc pow2 (-53) ≤ pow2 (-1) := pow2_le_pow2 (by omega)
      _ = 1/2 := by rw [pow2_neg_eq, pow2_one]
  have hx0 : (0:ℚ) < (i:ℚ)/k := by positivity
  have hf_half : (i:ℚ)/k * (1/2) ≤ fl64 ((i:ℚ)/k) := by nlinarith
  have hprod_lo : (1:ℚ)/2 ≤ fl64 ((i:ℚ)/k) * n := by
    have h1 : (i:ℚ)/k * (1/2) * n ≤ fl64 ((i:ℚ)/k) * n :=
      mul_le_mul_of_nonneg_right hf_half hn0.le
    have h2 : (1:ℚ)/2 ≤ (i:ℚ)/k * (1/2) * n := by
      have hstep : 1 / (n:ℚ) * (1/2) * n ≤ (i:ℚ)/k * (1/2) * n := by
        have hmul := mul_le_mul_of_nonneg_right hx_lo (by norm_num : (0:ℚ) ≤ 1/2)
        exact mul_le_mul_of_nonneg_right hmul hn0.le
      have heq : 1 / (n:ℚ) * (1/2) * n = 1/2 := by
        field_simp
      linarith
    linarith
  have hw3 : pow2 (-80) ≤ fl64 ((i:ℚ)/k) * n := by
    calc pow2 (-80) ≤ pow2 (-1) := pow2_le_pow2 (by omega)
      _ = 1/2 := by rw [pow2_neg_eq, pow2_one]
      _ ≤ _ := hprod_lo
  have hf_up : fl64 ((i:ℚ)/k) ≤ 3/2 := by nlinarith
  have hNle : (n:ℚ) ≤ pow2 40 := natCast_le_pow2_forty hn
  have hw4 : fl64 ((i:ℚ)/k) * n < pow2 80 := by
    have h1 : fl64 ((i:ℚ)/k) * n ≤ 3/2 * pow2 40 := by
      have hf0 : (0:ℚ) ≤ fl64 ((i:ℚ)/k) := by nlinarith
      calc fl64 ((i:ℚ)/k) * n ≤ 3/2 * n := mul_le_mul_of_nonneg_right hf_up hn0.le
        _ ≤ 3/2 * pow2 40 := by
            linarith [mul_le_mul_of_nonneg_left hNle (by norm_num : (0:ℚ) ≤ 3/2)]
    have h2 : (3:ℚ)/2 * pow2 40 < pow2 80 := by
      have h41 : pow2 41 ≤ pow2 80 := pow2_le_pow2 (by omega)
      have h40 : pow2 41 = 2 * pow2 40 := by
        rw [show (41:ℤ) = 1 + 40 by ring, pow2_add, pow2_one]
      have := pow2_pos (40 : ℤ)
      linarith
    linarith
  exact ⟨hw1, hw2, hw3, hw4⟩

/-- Two-sided relative error of the composed boundary value
`fl64(fl64(i/k)·n)` against the exact `(i/k)·n`. -/
theorem slice_value_bounds {i k n : ℕ} (hi1 : 1 ≤ i) (hik : i ≤ k)
    (hk1 : 1 ≤ k) (hkn : k ≤ n) (hn : n ≤ 2 ^ 40) :
    (i : ℚ) / k * n * (1 - pow2 (-52)) ≤ fl64 (fl64 ((i : ℚ) / k) * n) ∧
    fl64 (fl64 ((i : ℚ) / k) * n) ≤ (i : ℚ) / k * n * (1 + pow2 (-51)) := by
  obtain ⟨hw1, hw2, hw3, hw4⟩ := slice_windows hi1 hik hk1 hkn hn
  obtain ⟨hf_lo, hf_hi⟩ := fl64_rel hw1 hw2
  obtain ⟨hv_lo, hv_hi⟩ := fl64_rel hw3 hw4
  have hδpos : (0:ℚ) < pow2 (-53) := pow2_pos _
  have hδhalf : pow2 (-53) ≤ 1/2 := by
    calc pow2 (-53) ≤ pow2 (-1) := pow2_le_pow2 (by omega)
      _ = 1/2 := by rw [pow2_neg_eq, pow2_one]
  have h2δ : pow2 (-52) = 2 * pow2 (-53) := by
    rw [show (-52:ℤ) = 1 + -53 by ring, pow2_add, pow2_one]
  have h4δ : pow2 (-51) = 4 * pow2 (-53) := by
    have h2p : pow2 2 = 4 := by
      rw [show (2:ℤ) = 1 + 1 by ring, pow2_add, pow2_one]; norm_num
    rw [show (-51:ℤ) = 2 + -53 by ring, pow2_add, h2p]
  have hn0 : (0:ℚ) ≤ n := Nat.cast_nonneg n
  have hk0 : (0:ℚ) < k := by exact_mod_cast (by omega : 0 < k)
  have hx0 : (0:ℚ) ≤ (i:ℚ)/k := by positivity
  have hxn0 : (0:ℚ) ≤ (i:ℚ)/k * n := mul_nonneg hx0 hn0
  have hF0 : (0:ℚ) ≤ fl64 ((i:ℚ)/k) := by nlinarith
  have hFn_lo : ((i:ℚ)/k - (i:ℚ)/k * pow2 (-53)) * n ≤ fl64 ((i:ℚ)/k) * n :=
    mul_le_mul_of_nonneg_right hf_lo hn0
  have hFn_hi : fl64 ((i:ℚ)/k) * n ≤ ((i:ℚ)/k + (i:ℚ)/k * pow2 (-53)) * n :=
    mul_le_mul_of_nonneg_right hf_hi hn0
  constructor
  · rw [h2δ]
    nlinarith [mul_le_mul_of_nonneg_right hFn_lo hδpos.le,
      mul_nonneg hxn0 (mul_nonneg hδpos.le hδpos.le)]
  · rw [h4δ]
    nlinarith [mul_le_mul_of_nonneg_right hFn_hi hδpos.le,
      mul_nonneg hxn0 (mul_nonneg hδpos.le hδpos.le),
      mul_le_mul_of_nonneg_left hδhalf (mul_nonneg hxn0 hδpos.le)]

/-- The zeroth boundary is the start of the list. -/
theorem pySliceBoundary_zero (k n : ℕ) : pySliceBoundary 0 k n = 0 := by
  unfold pySliceBoundary
  rw [Nat.cast_zero, zero_div, fl64_zero, zero_mul, fl64_zero]
  norm_num

/-- The last boundary is the end of the list (`k/k` divides exactly to
`1.0` and `1.0·n` is exact for `n < 2^53`). -/
theorem pySliceBoundary_last {k n : ℕ} (hk : 1 ≤ k) (hn : n ≤ 2 ^ 40) :
    pySliceBoundary k k n = n := by
  unfold pySliceBoundary
  have hkq : ((k:ℚ)) ≠ 0 := Nat.cast_ne_zero.mpr (by omega)
  rw [div_self hkq, fl64_one, one_mul]
  rcases Nat.eq_zero_or_pos n with rfl | hn1
  · rw [Nat.cast_zero, fl64_zero]; norm_num
  · rw [fl64_natCast n hn1 (lt_of_le_of_lt hn (by norm_num)), Int.floor_natCast]
    exact Int.toNat_natCast n

/-- The float boundaries are monotone in the slice index. -/
theorem pySliceBoundary_mono {k n i j : ℕ} (hij : i ≤ j) (hjk : j ≤ k)
    (hk1 : 1 ≤ k) (hkn : k ≤ n) (hn : n ≤ 2 ^ 40) :
    pySliceBoundary i k n ≤ pySliceBoundary j k n := by
  rcases Nat.eq_zero_or_pos i with rfl | hi1
  · rw [pySliceBoundary_zero]; exact Nat.zero_le _
  obtain ⟨hx1, hx2, hx3, hx4⟩ := slice_windows hi1 (le_trans hij hjk) hk1 hkn hn
  obtain ⟨hy1, hy2, hy3, hy4⟩ := slice_windows (le_trans hi1 hij) hjk hk1 hkn hn
  unfold pySliceBoundary
  have hN0 : (0:ℚ) ≤ n := Nat.cast_nonneg n
  have hk0 : (0:ℚ) < k := by exact_mod_cast (by omega : 0 < k)
  have hd : (i:ℚ)/k ≤ (j:ℚ)/k := by
    rw [div_le_div_iff₀ hk0 hk0]
    exact mul_le_mul_of_nonneg_right (by exact_mod_cast hij) hk0.le
  have hf1 : fl64 ((i:ℚ)/k) ≤ fl64 ((j:ℚ)/k) := fl64_mono hx1 hd hy2
  have hf2 : fl64 ((i:ℚ)/k) * n ≤ fl64 ((j:ℚ)/k) * n :=
    mul_le_mul_of_nonneg_right hf1 hN0
  have hf3 : fl64 (fl64 ((i:ℚ)/k) * n) ≤ fl64 (fl64 ((j:ℚ)/k) * n) :=
    fl64_mono hx3 hf2 hy4
  exact Int.toNat_le_toNat (Int.floor_mono hf3)

/-- The first boundary is at least one whenever `2k ≤ n`. -/
theorem pySliceBoundary_one_pos {k n : ℕ} (hk2 : 2 ≤ k) (h2k : 2 * k ≤ n)
    (hn : n ≤ 2 ^ 40) : 1 ≤ pySliceBoundary 1 k n := by
  have hkn : k ≤ n := by omega
  have hb := (slice_value_bounds (i := 1) le_rfl (by omega) (by omega) hkn hn).1
  rw [Nat.cast_one] at hb
  unfold pySliceBoundary
  rw [Nat.cast_one]
  have hk0 : (0:ℚ) < k := by exact_mod_cast (by omega : 0 < k)
  have h2kq : 2 * (k:ℚ) ≤ n := by exact_mod_cast h2k
  have hδ : pow2 (-52) ≤ 1/2 := by
    calc pow2 (-52) ≤ pow2 (-1) := pow2_le_pow2 (by omega)
      _ = 1/2 := by rw [pow2_neg_eq, pow2_one]
  have hfrac : (2:ℚ) ≤ (1:ℚ)/k * n := by
    rw [show (1:ℚ)/k * n = n/k by ring, le_div_iff₀ hk0]
    linarith
  have hval : (1:ℚ) ≤ fl64 (fl64 ((1:ℚ)/k) * n) := by
    have hprod : (0:ℚ) ≤ ((1:ℚ)/k * n - 2) * (1 - pow2 (-52)) :=
      mul_nonneg (by linarith) (by linarith)
    nlinarith [hb, hprod, hδ, pow2_pos (-52:ℤ)]
  have h1 : (1:ℤ) ≤ ⌊fl64 (fl64 ((1:ℚ)/k) * n)⌋ :=
    Int.le_floor.mpr (by exact_mod_cast hval)
  omega

/-- The first boundary stays strictly below `n` whenever `k ≥ 2`. -/
theorem pySliceBoundary_one_lt {k n : ℕ} (hk2 : 2 ≤ k) (hkn : k ≤ n)
    (hn1 : 1 ≤ n) (hn : n ≤ 2 ^ 40) : pySliceBoundary 1 k n < n := by
  have hb := (slice_value_bounds (i := 1) le_rfl (by omega) (by omega) hkn hn).2
  rw [Nat.cast_one] at hb
  unfold pySliceBoundary
  rw [Nat.cast_one]
  have hk0 : (0:ℚ) < k := by exact_mod_cast (by omega : 0 < k)
  have hk2q : (2:ℚ) ≤ k := by exact_mod_cast hk2
  have hN0 : (0:ℚ) < n := by exact_mod_cast hn1
  have hδ : pow2 (-51) ≤ 1/2 := by
    calc pow2 (-51) ≤ pow2 (-1) := pow2_le_pow2 (by omega)
      _ = 1/2 := by rw [pow2_neg_eq, pow2_one]
  have hfrac : (1:ℚ)/k * n ≤ n/2 := by
    rw [show (1:ℚ)/k * n = n/k by ring,
      div_le_div_iff₀ hk0 (by norm_num : (0:ℚ) < 2)]
    nlinarith
  have hup : fl64 (fl64 ((1:ℚ)/k) * n) < n := by
    have hδpos : (0:ℚ) < pow2 (-51) := pow2_pos _
    nlinarith [hb, hfrac, mul_pos hN0 (show (0:ℚ) < 1 - pow2 (-51) by linarith)]
  have hfl : ⌊fl64 (fl64 ((1:ℚ)/k) * n)⌋ < (n:ℤ) :=
    Int.floor_lt.mpr (by exact_mod_cast hup)
  omega

/-- Dropping the empty slices does not change the concatenation. -/
theorem sliceList_flatten_aux (l : List α) (B : List (ℕ × ℕ)) :
    ((B.filterMap fun p =>
      if p.1 < p.2 then some ((l.drop p.1).take (p.2 - p.1)) else none).flatten) =
      (B.map fun p => (l.drop p.1).take (p.2 - p.1)).flatten := by
  induction B with
  | nil => rfl
  | cons a t ih =>
    by_cases h : a.1 < a.2
    · simp only [List.filterMap_cons, if_pos h, List.map_cons,
        List.flatten_cons, ih]
    · have he : a.2 - a.1 = 0 := by omega
      simp only [List.filterMap_cons, if_neg h, List.map_cons,
        List.flatten_cons, he, List.take_zero, List.nil_append, ih]

/-- The contiguous slices at the binary64 boundaries concatenate back to
the original list (the boundaries are monotone, start at `0` and end at
the length). -/
theorem sliceList_flatten {k : ℕ} (l : List α) (hk2 : 2 ≤ k)
    (hkn : k ≤ l.length) (hn : l.length ≤ 2 ^ 40) :
    (sliceList l k).flatten = l := by
  unfold sliceList sliceBounds
  rw [sliceList_flatten_aux, List.map_map]
  have main : ∀ j, j ≤ k → (((List.range j).map fun i =>
      (l.drop (pySliceBoundary i k l.length)).take
        (pySliceBoundary (i + 1) k l.length -
          pySliceBoundary i k l.length)).flatten) =
      l.take (pySliceBoundary j k l.length) := by
    intro j
    induction j with
    | zero => simp [pySliceBoundary_zero]
    | succ m ih =>
      intro hm
      rw [List.range_succ, List.map_append, List.flatten_append, ih (by omega)]
      simp only [List.map_cons, List.map_nil, List.flatten_cons,
        List.flatten_nil, List.append_nil]
      have hmono : pySliceBoundary m k l.length ≤
          pySliceBoundary (m + 1) k l.length :=
        pySliceBoundary_mono (by omega) (by omega) (by omega) hkn hn
      have hsum : pySliceBoundary m k l.length +
          (pySliceBoundary (m + 1) k l.length - pySliceBoundary m k l.length) =
          pySliceBoundary (m + 1) k l.length := by omega
      rw [← hsum, List.take_add, Nat.add_sub_cancel_left]
  have hfin := main k le_rfl
  rw [pySliceBoundary_last (by omega) hn, List.take_length] at hfin
  exact hfin

/-- Every kept slice is non-empty and strictly shorter than the list. -/
theorem sliceList_mem {l : List α} {k : ℕ} {c : List α} (hk2 : 2 ≤ k)
    (h2k : 2 * k ≤ l.length) (hn : l.length ≤ 2 ^ 40)
    (hc : c ∈ sliceList l k) : c ≠ [] ∧ c.length < l.length := by
  unfold sliceList sliceBounds at hc
  obtain ⟨p, hp, hif⟩ := List.mem_filterMap.mp hc
  obtain ⟨i, hi, rfl⟩ := List.mem_map.mp hp
  rw [List.mem_range] at hi
  split at hif
  · rename_i hlt
    rcases Option.some.injEq _ _ ▸ hif with rfl
    have hkn : k ≤ l.length := by omega
    have hend : pySliceBoundary (i + 1) k l.length ≤ l.length := by
      have hmono := pySliceBoundary_mono (i := i + 1) (j := k) (by omega) le_rfl
        (by omega) hkn hn
      rwa [pySliceBoundary_last (by omega) hn] at hmono
    constructor
    · intro hnil
      have := congrArg List.length hnil
      simp only [List.length_take, List.length_drop, List.length_nil] at this
      omega
    · simp only [List.length_take, List.length_drop]
      rcases Nat.eq_zero_or_pos i with rfl | hipos
      · simp only [Nat.zero_add]
        have hb0 : pySliceBoundary 0 k l.length = 0 :=
          pySliceBoundary_zero k l.length
        have hb1 : pySliceBoundary 1 k l.length < l.length :=
          pySliceBoundary_one_lt hk2 hkn (by omega) hn
        omega
      · have hb1 : 1 ≤ pySliceBoundary 1 k l.length :=
          pySliceBoundary_one_pos hk2 h2k hn
        have hbi : pySliceBoundary 1 k l.length ≤ pySliceBoundary i k l.length :=
          pySliceBoundary_mono hipos (by omega) (by omega) hkn hn
        omega
  · exact absurd hif (by simp)

/-- The subcluster count is at least 2 and at most `n` whenever the
cluster exceeds the LLM budget. -/
theorem numSubclusters_bounds {n : ℕ} (h : maxClusterSizeForLlm < n) :
    2 ≤ numSubclusters n ∧ numSubclusters n ≤ n := by
  have hs5 : 5 ≤ subclusterTargetSize n :=
    le_min (by norm_num [maxClusterSizeForLlm]) (le_max_left 5 _)
  have hs20 : subclusterTargetSize n ≤ maxClusterSizeForLlm := min_le_left _ _
  rw [maxClusterSizeForLlm] at hs20 h
  unfold numSubclusters
  set s := subclusterTargetSize n with hs
  constructor
  · rw [Nat.le_div_iff_mul_le (by omega : 0 < s)]
    omega
  · have h1 : n + s - 1 ≤ n * s := by
      have hmul : n * 5 ≤ n * s := Nat.mul_le_mul_left n hs5
      omega
    have h2 : (n + s - 1) / s ≤ n * s / s := Nat.div_le_div_right h1
    rwa [Nat.mul_div_cancel _ (by omega : 0 < s)] at h2

/-- Oversize clusters have a target size of at least 9, so at most
`(n+19)/9` subclusters. -/
theorem numSubclusters_le9 {n : ℕ} (h : maxClusterSizeForLlm < n) :
    9 * numSubclusters n ≤ n + 19 := by
  have hs9 : 9 ≤ subclusterTargetSize n := by
    rw [maxClusterSizeForLlm] at h
    have h81 : 9 ≤ Nat.sqrt (4 * n) := Nat.le_sqrt.mpr (by omega)
    unfold subclusterTargetSize maxClusterSizeForLlm
    omega
  have hs20 : subclusterTargetSize n ≤ maxClusterSizeForLlm := min_le_left _ _
  rw [maxClusterSizeForLlm] at hs20
  show 9 * ((n + subclusterTargetSize n - 1) / subclusterTargetSize n) ≤ n + 19
  set s := subclusterTargetSize n with hsdef
  have hdm : (n + s - 1) / s * s ≤ n + s - 1 := Nat.div_mul_le_self _ _
  have h9q : 9 * ((n + s - 1) / s) ≤ (n + s - 1) / s * s := by
    rw [Nat.mul_comm]
    exact Nat.mul_le_mul_left _ hs9
  omega

set_option maxRecDepth 4000 in
unseal Rat.add Rat.mul Rat.sub Rat.inv in
/-- Counterexample to C8 as stated: a 209-block cluster yields target
size `s = 20` and `k = 11` subclusters, and the spec's third slice
boundary is `⌊3·209/11⌋ = 57`; but the code computes
`int(math.floor((3/11)*209))` in binary64, where the double nearest to
`3/11` falls half an ulp short and the product with 209 evaluates to
just below 57, so the code cuts at 56. -/
theorem c8_counterexample :
    subclusterTargetSize 209 = 20 ∧ numSubclusters 209 = 11 ∧
    pySliceBoundary 3 11 209 = 56 ∧ 3 * 209 / 11 = 57 := by
  have hs : subclusterTargetSize 209 = 20 := by
    have h1 : 20 ≤ Nat.sqrt (4 * 209) := Nat.le_sqrt.mpr (by norm_num)
    unfold subclusterTargetSize maxClusterSizeForLlm
    omega
  refine ⟨hs, ?_, ?_, by norm_num⟩
  · show (209 + subclusterTargetSize 209 - 1) / subclusterTargetSize 209 = 11
    rw [hs]
  · decide

/-- C8 (amended): for a cluster larger than the LLM budget `M = 20` (and
of any realistic size, `n ≤ 2^40`), the hierarchical merger computes the
target size `s = min(M, max(5, ⌊2·√n⌋))` and subcluster count
`k = ⌈n/s⌉`, sorts the blocks by identifier, and cuts them at the
binary64 boundaries `b_i = int(math.floor((i/k)·n))` — which can fall
below the exact `⌊i·n/k⌋`.  The boundaries start at `0`, end at `n` and
are monotone, so the kept slices are non-empty, pairwise disjoint and
cover all `n` blocks (their concatenation is exactly the sorted list),
and every slice is strictly smaller than `n`. -/
theorem c8_hierarchical_split (blocks : List Block)
    (h : maxClusterSizeForLlm < blocks.length)
    (h40 : blocks.length ≤ 2 ^ 40) :
    subclusterTargetSize blocks.length =
      min maxClusterSizeForLlm (max 5 (Nat.sqrt (4 * blocks.length))) ∧
    numSubclusters blocks.length =
      (blocks.length + subclusterTargetSize blocks.length - 1) /
        subclusterTargetSize blocks.length ∧
    pySliceBoundary 0 (numSubclusters blocks.length) blocks.length = 0 ∧
    pySliceBoundary (numSubclusters blocks.length)
      (numSubclusters blocks.length) blocks.length = blocks.length ∧
    (∀ i j, i ≤ j → j ≤ numSubclusters blocks.length →
      pySliceBoundary i (numSubclusters blocks.length) blocks.length ≤
        pySliceBoundary j (numSubclusters blocks.length) blocks.length) ∧
    (subclusterSlices blocks).flatten = List.insertionSort uuidLE blocks ∧
    ∀ c ∈ subclusterSlices blocks, c ≠ [] ∧ c.length < blocks.length := by
  obtain ⟨hk2, hkn⟩ := numSubclusters_bounds h
  have h9 := numSubclusters_le9 h
  rw [maxClusterSizeForLlm] at h
  have h2k : 2 * numSubclusters blocks.length ≤ blocks.length := by omega
  have hlen : (List.insertionSort uuidLE blocks).length = blocks.length :=
    (List.perm_insertionSort uuidLE blocks).length_eq
  refine ⟨rfl, rfl, pySliceBoundary_zero _ _,
    pySliceBoundary_last (by omega) h40, ?_, ?_, ?_⟩
  · intro i j hij hjk
    exact pySliceBoundary_mono hij hjk (by omega) hkn h40
  · unfold subclusterSlices
    refine sliceList_flatten _ hk2 ?_ ?_
    · rwa [hlen]
    · rwa [hlen]
  · intro c hc
    unfold subclusterSlices at hc
    have h2k2 : 2 * numSubclusters blocks.length ≤
        (List.insertionSort uuidLE blocks).length := by rwa [hlen]
    have h40b : (List.insertionSort uuidLE blocks).length ≤ 2 ^ 40 := by
      rwa [hlen]
    have hmem := sliceList_mem hk2 h2k2 h40b hc
    rwa [hlen] at hmem

/-- Witness for C8: the 45-block cluster of the design's oversize
scenario (target size 13, 4 slices; here `k = 4` is a power of two, so
the float boundaries coincide with the exact 0, 11, 22, 33, 45). -/
theorem c8_witness :
    subclusterTargetSize blocks45.length =
      min maxClusterSizeForLlm (max 5 (Nat.sqrt (4 * blocks45.length))) ∧
    numSubclusters blocks45.length =
      (blocks45.length + subclusterTargetSize blocks45.length - 1) /
        subclusterTargetSize blocks45.length ∧
    pySliceBoundary 0 (numSubclusters blocks45.length) blocks45.length = 0 ∧
    pySliceBoundary (numSubclusters blocks45.length)
      (numSubclusters blocks45.length) blocks45.length = blocks45.length ∧
    (∀ i j, i ≤ j → j ≤ numSubclusters blocks45.length →
      pySliceBoundary i (numSubclusters blocks45.length) blocks45.length ≤
        pySliceBoundary j (numSubclusters blocks45.length) blocks45.length) ∧
    (subclusterSlices blocks45).flatten = List.insertionSort uuidLE blocks45 ∧
    ∀ c ∈ subclusterSlices blocks45, c ≠ [] ∧ c.length < blocks45.length :=
  c8_hierarchical_split blocks45 (by simp [blocks45, maxClusterSizeForLlm])
    (by norm_num [blocks45])

/-- Every pair returned by the strategy selector has `i < j < |V|`. -/
theorem auto_pairs_bounds (tables : List (List Vec)) (V : List Vec) (θ : ℚ) :
    ∀ t ∈ findSimilarPairsAuto tables V θ, t.1 < t.2.1 ∧ t.2.1 < V.length := by
  intro t ht
  obtain ⟨i, j, s⟩ := t
  unfold findSimilarPairsAuto at ht
  split at ht
  · have := mem_findSimilarPairsWithLsh ht
    exact ⟨this.1, this.2.1⟩
  · have := mem_findSimilarPairsDense.mp ht
    exact ⟨this.1, this.2.1⟩

/-- Adjacency neighbours only mention pair endpoints. -/
theorem neighbors_lt {pairs : List (ℕ × ℕ × ℚ)} {n : ℕ}
    (hp : ∀ t ∈ pairs, t.1 < t.2.1 ∧ t.2.1 < n) :
    ∀ y x, x ∈ neighbors pairs y → x < n := by
  intro y x hx
  unfold neighbors at hx
  rw [List.mem_dedup, List.mem_append] at hx
  rcases hx with hx | hx <;> obtain ⟨p, hpmem, hif⟩ := List.mem_filterMap.mp hx
  · split at hif
    · cases hif
      exact (hp p hpmem).2
    · exact absurd hif (by simp)
  · split at hif
    · cases hif
      rename_i hp1
      have h1 := hp p hpmem
      omega
    · exact absurd hif (by simp)

/-- Everything collected by the depth-first walk comes from the initial
stack or from some adjacency list. -/
theorem dfsCollect_subset (adj : ℕ → List ℕ) :
    ∀ fuel stack visited, ∀ x ∈ (dfsCollect adj fuel stack visited).1,
      x ∈ stack ∨ ∃ y, x ∈ adj y := by
  intro fuel
  induction fuel with
  | zero =>
    intro stack visited x hx
    simp [dfsCollect] at hx
  | succ m ih =>
    intro stack visited x hx
    match stack with
    | [] => simp [dfsCollect] at hx
    | node :: rest =>
      rw [dfsCollect] at hx
      split at hx
      · rcases ih rest visited x hx with h | h
        · exact Or.inl (List.mem_cons_of_mem _ h)
        · exact Or.inr h
      · dsimp only at hx
        rcases hrec : dfsCollect adj m
            ((((adj node).filter fun m => ¬ (node :: visited).contains m).reverse) ++ rest)
            (node :: visited) with ⟨c', v'⟩
        rw [hrec] at hx
        simp only at hx
        rcases List.mem_cons.mp hx with rfl | hx'
        · exact Or.inl (List.mem_cons_self _ _)
        · have := ih _ _ x (by rw [hrec]; exact hx')
          rcases this with h | h
          · rcases List.mem_append.mp h with h' | h'
            · exact Or.inr ⟨node, List.mem_of_mem_filter (List.mem_reverse.mp h')⟩
            · exact Or.inl (List.mem_cons_of_mem _ h')
          · exact Or.inr h

/-- All indices placed in BFS clusters are valid row indices. -/
theorem bfsClustering_bounds {pairs : List (ℕ × ℕ × ℚ)} {n : ℕ}
    (hp : ∀ t ∈ pairs, t.1 < t.2.1 ∧ t.2.1 < n) :
    ∀ c ∈ bfsClustering pairs n, ∀ i ∈ c, i < n := by
  unfold bfsClustering
  have main : ∀ L : List ℕ, (∀ i ∈ L, i < n) →
      ∀ acc : List (List ℕ) × List ℕ,
        (∀ c ∈ acc.1, ∀ i ∈ c, i < n) →
        ∀ c ∈ (L.foldl (fun acc i =>
          if acc.2.contains i then acc
          else
            let r := dfsCollect (neighbors pairs) (1 + n + 2 * pairs.length) [i] acc.2
            (acc.1 ++ [r.1], r.2)) acc).1, ∀ i ∈ c, i < n := by
    intro L
    induction L with
    | nil => intro _ acc hacc; exact hacc
    | cons a t iht =>
      intro hL acc hacc
      rw [List.foldl_cons]
      apply iht (fun i hi => hL i (List.mem_cons_of_mem _ hi))
      split
      · exact hacc
      · intro c hc i hi
        rcases List.mem_append.mp hc with hc' | hc'
        · exact hacc c hc' i hi
        · rcases List.mem_singleton.mp hc' with rfl
          rcases dfsCollect_subset (neighbors pairs) _ _ _ i hi with h | h
          · rcases List.mem_singleton.mp h with rfl
            exact hL i (List.mem_cons_self _ _)
          · obtain ⟨y, hy⟩ := h
            exact neighbors_lt hp y i hy
  intro c hc
  refine main (List.range n) (fun i hi => List.mem_range.mp hi) ([], []) ?_ c ?_
  · intro c hc
    simp at hc
  · exact hc

/-- All indices placed by the cluster builder are valid row indices,
assuming the Louvain oracle partitions `{0..n-1}` (which
`networkx.louvain_communities` does). -/
theorem createClusters_bounds (louvain : List (ℕ × ℕ × ℚ) → ℕ → List (List ℕ))
    (pairs : List (ℕ × ℕ × ℚ)) (n : ℕ)
    (hl : ∀ c ∈ louvain pairs n, ∀ i ∈ c, i < n)
    (hp : ∀ t ∈ pairs, t.1 < t.2.1 ∧ t.2.1 < n) :
    ∀ c ∈ createClusters louvain pairs n, ∀ i ∈ c, i < n := by
  unfold createClusters
  split
  · intro c hc i hi
    obtain ⟨a, ha, rfl⟩ := List.mem_map.mp hc
    rcases List.mem_singleton.mp hi with rfl
    exact List.mem_range.mp ha
  · split
    · exact hl
    · exact bfsClustering_bounds hp

/-- Blocks produced by `_contents_to_blocks` satisfy the source-account
invariant whenever their source blocks do. -/
theorem contentsToBlocks_ok {A : List Block} {gen : ℕ → String} {ctr : ℕ}
    {contents : List Content} {cluster : List Block}
    (hcl : ∀ cb ∈ cluster, OkBlock A gen cb) :
    ∀ b ∈ contentsToBlocks gen ctr contents cluster, OkBlock A gen b := by
  intro b hb
  unfold contentsToBlocks at hb
  obtain ⟨ic, _, rfl⟩ := List.mem_map.mp hb
  constructor
  · exact Or.inr ⟨ctr + ic.1, rfl⟩
  · intro s hs
    simp only [Option.getD_some] at hs
    obtain ⟨cb, hcb, rfl⟩ := List.mem_map.mp hs
    rcases (hcl cb hcb).1 with h | h
    · exact Or.inl h
    · exact Or.inr (Or.inl h)

/-- Every block selected into a cluster comes from the master list. -/
theorem clusterBlocks_mem {master : List (Block × Vec)} {c : List ℕ} :
    ∀ b ∈ c.filterMap fun i => (master.get? i).map Prod.fst,
      ∃ v, (b, v) ∈ master := by
  intro b hb
  obtain ⟨i, _, hif⟩ := List.mem_filterMap.mp hb
  obtain ⟨pv, hpv, rfl⟩ := Option.map_eq_some'.mp hif
  exact ⟨pv.2, List.get?_mem hpv⟩

/-- The cluster worker only emits blocks satisfying the source-account
invariant. -/
theorem processClusters_ok (o : DedupeOracles) (A : List Block) (it : ℕ)
    (master : List (Block × Vec)) (clusters : List (List ℕ)) (ctr : ℕ)
    (hm : ∀ pv ∈ master, OkBlock A o.gen pv.1) :
    ∀ b ∈ (processClusters o it master clusters ctr).1, OkBlock A o.gen b := by
  unfold processClusters
  have main : ∀ L : List (ℕ × List ℕ),
      ∀ acc : List Block × List String × List ℕ × ℕ,
      (∀ b ∈ acc.1, OkBlock A o.gen b) →
      ∀ b ∈ (L.foldl (fun acc ci =>
        let clusterBlocks := ci.2.filterMap fun i => (master.get? i).map Prod.fst
        let contents := o.mergeContents it ci.1
        if contents.isEmpty then acc
        else
          (acc.1 ++ contentsToBlocks o.gen acc.2.2.2 contents clusterBlocks,
           acc.2.1 ++ clusterBlocks.map Block.uuid,
           acc.2.2.1 ++ ci.2,
           acc.2.2.2 + contents.length)) acc).1, OkBlock A o.gen b := by
    intro L
    induction L with
    | nil => intro acc hacc; exact hacc
    | cons a t ih =>
      intro acc hacc
      rw [List.foldl_cons]
      apply ih
      dsimp only
      split
      · exact hacc
      · intro b hb
        rcases List.mem_append.mp hb with hb' | hb'
        · exact hacc b hb'
        · refine contentsToBlocks_ok ?_ b hb'
          intro cb hcb
          obtain ⟨v, hv⟩ := clusterBlocks_mem cb hcb
          exact hm (cb, v) hv
  exact main clusters.enum ([], [], [], ctr) (by intro b hb; simp at hb)

/-- The cluster worker only emits merged-typed, unhidden blocks with a
non-empty source list, provided every processed cluster has at least one
valid index. -/
theorem processClusters_shape (o : DedupeOracles) (it : ℕ)
    (master : List (Block × Vec)) (clusters : List (List ℕ)) (ctr : ℕ)
    (hcl : ∀ c ∈ clusters, ∃ i ∈ c, i < master.length) :
    ∀ b ∈ (processClusters o it master clusters ctr).1,
      b.type = "merged" ∧ b.hidden = false ∧ b.sourcesUsed.getD [] ≠ [] := by
  unfold processClusters
  have main : ∀ L : List (ℕ × List ℕ),
      (∀ ci ∈ L, ∃ i ∈ ci.2, i < master.length) →
      ∀ acc : List Block × List String × List ℕ × ℕ,
      (∀ b ∈ acc.1,
        b.type = "merged" ∧ b.hidden = false ∧ b.sourcesUsed.getD [] ≠ []) →
      ∀ b ∈ (L.foldl (fun acc ci =>
        let clusterBlocks := ci.2.filterMap fun i => (master.get? i).map Prod.fst
        let contents := o.mergeContents it ci.1
        if contents.isEmpty then acc
        else
          (acc.1 ++ contentsToBlocks o.gen acc.2.2.2 contents clusterBlocks,
           acc.2.1 ++ clusterBlocks.map Block.uuid,
           acc.2.2.1 ++ ci.2,
           acc.2.2.2 + contents.length)) acc).1,
      b.type = "merged" ∧ b.hidden = false ∧ b.sourcesUsed.getD [] ≠ [] := by
    intro L
    induction L with
    | nil => intro _ acc hacc; exact hacc
    | cons a t ih =>
      intro hL acc hacc
      rw [List.foldl_cons]
      apply ih (fun ci hci => hL ci (List.mem_cons_of_mem _ hci))
      dsimp only
      split
      · exact hacc
      · intro b hb
        rcases List.mem_append.mp hb with hb' | hb'
        · exact hacc b hb'
        · unfold contentsToBlocks at hb'
          obtain ⟨ic, _, rfl⟩ := List.mem_map.mp hb'
          refine ⟨rfl, rfl, ?_⟩
          simp only [Option.getD_some, ne_eq, List.map_eq_nil_iff]
          obtain ⟨i, hi, hlt⟩ := hL a (List.mem_cons_self _ _)
          intro hnil
          have hget : master.get? i = some (master.get ⟨i, hlt⟩) :=
            List.get?_eq_get hlt
          have hmem : (master.get ⟨i, hlt⟩).1 ∈
              a.2.filterMap fun i => (master.get? i).map Prod.fst :=
            List.mem_filterMap.mpr ⟨i, hi, by rw [hget]; rfl⟩
          rw [hnil] at hmem
          simp at hmem
  exact main clusters.enum
    (by
      intro ci hci
      have h := List.mem_enum (x := ci.2) (i := ci.1) (by simpa using hci)
      exact h.2 ▸ hcl _ (h.2 ▸ List.getElem_mem h.1))
    ([], [], [], ctr) (by intro b hb; simp at hb)

/-- One loop iteration preserves the source-account invariant of the
master list and of the accumulated merged blocks. -/
theorem dedupeIter_inv (o : DedupeOracles) (A : List Block) (it : ℕ)
    (st : LoopState)
    (hms : ∀ pv ∈ st.master, OkBlock A o.gen pv.1)
    (hmg : ∀ b ∈ st.merged, OkBlock A o.gen b) :
    (∀ pv ∈ (dedupeIter o it st).1.master, OkBlock A o.gen pv.1) ∧
    (∀ b ∈ (dedupeIter o it st).1.merged, OkBlock A o.gen b) := by
  unfold dedupeIter
  split
  · exact ⟨hms, hmg⟩
  · dsimp only
    split
    · exact ⟨hms, hmg⟩
    · split
      · exact ⟨hms, hmg⟩
      · rcases hpc : processClusters o it st.master
            (((createClusters o.louvain
              (findSimilarPairsAuto o.tables (st.master.map Prod.snd) st.θ)
              st.master.length)).filter fun c => 1 < c.length) st.ctr with
          ⟨mr, hn, si, c'⟩
        have hok : ∀ b ∈ mr, OkBlock A o.gen b := by
          have := processClusters_ok o A it st.master
            (((createClusters o.louvain
              (findSimilarPairsAuto o.tables (st.master.map Prod.snd) st.θ)
              st.master.length)).filter fun c => 1 < c.length) st.ctr hms
          rw [hpc] at this
          exact this
        dsimp only
        constructor
        · intro pv hpv
          rcases List.mem_append.mp hpv with h | h
          · obtain ⟨i, _, hif⟩ := List.mem_filterMap.mp h
            exact hms pv (List.get?_mem hif)
          · obtain ⟨b, hb, rfl⟩ := List.mem_map.mp h
            exact hok b hb
        · intro b hb
          rcases List.mem_append.mp hb with h | h
          · exact hmg b h
          · exact hok b h

/-- The whole loop preserves the source-account invariant of the merged
accumulator. -/
theorem dedupeLoop_inv (o : DedupeOracles) (A : List Block) :
    ∀ (fuel it : ℕ) (st : LoopState),
    (∀ pv ∈ st.master, OkBlock A o.gen pv.1) →
    (∀ b ∈ st.merged, OkBlock A o.gen b) →
    ∀ b ∈ (dedupeLoop o fuel it st).merged, OkBlock A o.gen b := by
  intro fuel
  induction fuel with
  | zero => intro it st _ hmg; exact hmg
  | succ m ih =>
    intro it st hms hmg
    unfold dedupeLoop
    rcases hit : dedupeIter o it st with ⟨st', cont⟩
    have h := dedupeIter_inv o A it st hms hmg
    rw [hit] at h
    dsimp only
    split
    · exact ih (it + 1) st' h.1 h.2
    · exact h.2

/-- Every block of the final list satisfies the source-account
invariant. -/
theorem runDedupe_final_ok (o : DedupeOracles) (blocks : List Block)
    (sim : ℚ) (its : ℕ) :
    ∀ b ∈ (runDedupe o blocks sim its).1,
      OkBlock (activeBlocks blocks) o.gen b := by
  have hbase : ∀ b ∈ activeBlocks blocks, OkBlock (activeBlocks blocks) o.gen b := by
    intro b hb
    exact ⟨Or.inl (List.mem_map_of_mem Block.uuid hb),
      fun s hs => Or.inr (Or.inr ⟨b, hb, hs⟩)⟩
  unfold runDedupe
  dsimp only
  split
  · exact hbase
  · dsimp only
    intro b hb
    rcases List.mem_append.mp hb with h | h
    · exact hbase b (List.mem_of_mem_filter h)
    · refine dedupeLoop_inv o (activeBlocks blocks) its 1
        { master := (activeBlocks blocks).map fun b => (b, o.embed (createTextBlob b))
          hiddenIds := [], merged := [], ctr := 0, θ := sim } ?_ ?_ b h
      · intro pv hpv
        obtain ⟨b', hb', rfl⟩ := List.mem_map.mp hpv
        exact hbase b' hb'
      · intro b hb
        simp at hb

unseal Rat.add Rat.mul Rat.sub Rat.inv in
/-- C1 counterexample: in the two-iteration run on `reqTwoIter`,
iteration 1 merges blocks "a" and "b" into a fresh block "g0"; iteration
2 clusters "g0" with "c", and the resulting merged block lists "g0" — an
identifier minted in an earlier iteration, not an input identifier — in
its `sourcesUsed`.  The union of `sourcesUsed` over the returned merged
blocks is therefore not a subset of the active input identifiers. -/
theorem c1_counterexample :
    ¬ ∀ s ∈ sourcesUnion (mergedSection cexOracles reqTwoIter),
        s ∈ activeIds reqTwoIter.results := by
  decide

/-- C1 (amended): every identifier in the union of `sourcesUsed` over the
returned merged blocks is an active input identifier, an identifier
freshly minted for a merged block during the run, or an identifier
declared in an active input block's own `blockifyResultsUsed` (input
blocks of type "merged" are re-emitted verbatim). -/
theorem c1_sources_accounted (o : DedupeOracles) (req : AutoDistillRequest) :
    ∀ s ∈ sourcesUnion (mergedSection o req),
      OkSource (activeBlocks req.results) o.gen s := by
  intro s hs
  obtain ⟨b, hb, hsb⟩ := List.mem_flatMap.mp hs
  unfold mergedSection at hb
  have hb' := List.mem_of_mem_filter hb
  exact (runDedupe_final_ok o req.results req.similarity req.iterations b hb').2 s hsb

unseal Rat.add Rat.mul Rat.sub Rat.inv in
/-- Witness for C1: the amended statement applied to the identifier "g0"
of the two-iteration run (it is accounted for as a minted identifier). -/
theorem c1_witness :
    OkSource (activeBlocks reqTwoIter.results) cexOracles.gen "g0" :=
  c1_sources_accounted cexOracles reqTwoIter "g0" (by decide)

/-- One loop iteration only accumulates merged-typed, unhidden blocks
with non-empty source lists (given a Louvain oracle that returns valid
indices). -/
theorem dedupeIter_shape (o : DedupeOracles) (it : ℕ) (st : LoopState)
    (hL : ∀ ps n, ∀ c ∈ o.louvain ps n, ∀ i ∈ c, i < n)
    (hmg : ∀ b ∈ st.merged,
      b.type = "merged" ∧ b.hidden = false ∧ b.sourcesUsed.getD [] ≠ []) :
    ∀ b ∈ (dedupeIter o it st).1.merged,
      b.type = "merged" ∧ b.hidden = false ∧ b.sourcesUsed.getD [] ≠ [] := by
  have hcl : ∀ c ∈ (createClusters o.louvain
      (findSimilarPairsAuto o.tables (st.master.map Prod.snd) st.θ)
      st.master.length).filter fun c => 1 < c.length,
      ∃ i ∈ c, i < st.master.length := by
    intro c hc
    have hc1 := List.mem_of_mem_filter hc
    have hlen : 1 < c.length := by simpa using List.of_mem_filter hc
    have hp : ∀ t ∈ findSimilarPairsAuto o.tables (st.master.map Prod.snd) st.θ,
        t.1 < t.2.1 ∧ t.2.1 < st.master.length := by
      intro t ht
      have := auto_pairs_bounds o.tables (st.master.map Prod.snd) st.θ t ht
      rwa [List.length_map] at this
    have hbounds := createClusters_bounds o.louvain _ st.master.length
      (hL _ _) hp c hc1
    obtain ⟨x, hx⟩ := List.exists_mem_of_ne_nil c
      (List.length_pos.mp (by omega))
    exact ⟨x, hx, hbounds x hx⟩
  unfold dedupeIter
  split
  · exact hmg
  · dsimp only
    split
    · exact hmg
    · split
      · exact hmg
      · rcases hpc : processClusters o it st.master
            (((createClusters o.louvain
              (findSimilarPairsAuto o.tables (st.master.map Prod.snd) st.θ)
              st.master.length)).filter fun c => 1 < c.length) st.ctr with
          ⟨mr, hn, si, c'⟩
        have hsh : ∀ b ∈ mr,
            b.type = "merged" ∧ b.hidden = false ∧ b.sourcesUsed.getD [] ≠ [] := by
          have := processClusters_shape o it st.master
            (((createClusters o.louvain
              (findSimilarPairsAuto o.tables (st.master.map Prod.snd) st.θ)
              st.master.length)).filter fun c => 1 < c.length) st.ctr hcl
          rw [hpc] at this
          exact this
        dsimp only
        intro b hb
        rcases List.mem_append.mp hb with h | h
        · exact hmg b h
        · exact hsh b h

/-- The whole loop only accumulates merged-typed, unhidden blocks with
non-empty source lists. -/
theorem dedupeLoop_shape (o : DedupeOracles)
    (hL : ∀ ps n, ∀ c ∈ o.louvain ps n, ∀ i ∈ c, i < n) :
    ∀ (fuel it : ℕ) (st : LoopState),
    (∀ b ∈ st.merged,
      b.type = "merged" ∧ b.hidden = false ∧ b.sourcesUsed.getD [] ≠ []) →
    ∀ b ∈ (dedupeLoop o fuel it st).merged,
      b.type = "merged" ∧ b.hidden = false ∧ b.sourcesUsed.getD [] ≠ [] := by
  intro fuel
  induction fuel with
  | zero => intro it st hmg; exact hmg
  | succ m ih =>
    intro it st hmg
    unfold dedupeLoop
    rcases hit : dedupeIter o it st with ⟨st', cont⟩
    have h := dedupeIter_shape o it st hL hmg
    rw [hit] at h
    dsimp only
    split
    · exact ih (it + 1) st' h
    · exact h

/-- C9 counterexample: an input block that already carries
`type="merged"` (accepted by validation) reappears in the merged section
of the response un-hidden and with `sourcesUsed` absent — the claim that
every block after the hidden originals has a non-empty `sourcesUsed`
fails. -/
theorem c9_counterexample :
    ¬ ∀ b ∈ mergedSection cexOracles reqInputMerged,
        b.sourcesUsed.getD [] ≠ [] := by
  decide

/-- C9 (amended): the results list is every input block in input order
with `hidden=true`, followed by the blocks of the final set with
`type="merged"`; when no *active* input block is itself of type "merged"
(and the Louvain oracle returns valid indices), that merged section
consists exactly of pipeline-produced blocks, each with `type="merged"`,
`hidden=false` and a non-empty `sourcesUsed`. -/
theorem c9_response_shape (o : DedupeOracles) (req : AutoDistillRequest)
    (hA : ∀ b ∈ activeBlocks req.results, b.type ≠ "merged")
    (hL : ∀ ps n, ∀ c ∈ o.louvain ps n, ∀ i ∈ c, i < n) :
    (processDedupeRequest o req).results =
      req.results.map hideBlock ++ mergedSection o req ∧
    ∀ b ∈ mergedSection o req,
      b.type = "merged" ∧ b.hidden = false ∧ b.sourcesUsed.getD [] ≠ [] := by
  constructor
  · rfl
  · intro b hb
    unfold mergedSection at hb
    have htype : b.type = "merged" := by simpa using List.of_mem_filter hb
    have hmem := List.mem_of_mem_filter hb
    revert hmem
    unfold runDedupe
    dsimp only
    split
    · intro hmem
      exact absurd htype (hA b hmem)
    · intro hmem
      rcases List.mem_append.mp hmem with h | h
      · exact absurd htype (hA b (List.mem_of_mem_filter h))
      · exact dedupeLoop_shape o hL req.iterations 1 _
          (by intro b hb; simp at hb) b h

unseal Rat.add Rat.mul Rat.sub Rat.inv in
/-- Witness for C9: the amended statement on the three-block
two-iteration run, whose active inputs are all of type "blockify". -/
theorem c9_witness :
    (processDedupeRequest cexOracles reqTwoIter).results =
      reqTwoIter.results.map hideBlock ++ mergedSection cexOracles reqTwoIter ∧
    ∀ b ∈ mergedSection cexOracles reqTwoIter,
      b.type = "merged" ∧ b.hidden = false ∧ b.sourcesUsed.getD [] ≠ [] :=
  c9_response_shape cexOracles reqTwoIter (by decide)
    (by intro ps n c hc; simp [cexOracles, cexLouvain] at hc)

/-- The starting count recorded by the algorithm's statistics is the
active-block count. -/
theorem runDedupe_stats_starting (o : DedupeOracles) (blocks : List Block)
    (sim : ℚ) (its : ℕ) :
    (runDedupe o blocks sim its).2.startingBlockCount =
      (activeBlocks blocks).length := by
  unfold runDedupe
  dsimp only
  split <;> rfl

/-- C3: on every successful job the recomputed final statistics satisfy
`blocksRemoved = startingBlockCount` (the active input count),
`blocksAdded = finalBlockCount` (the number of merged blocks appended to
the response), and `blockReductionPercent =
round(100·(1 − final/starting), 2)` when the starting count is positive
and 0 otherwise; in particular, for an input whose only block is hidden,
`finalBlockCount = 0` and `blocksAdded = 0` and the response is just the
hidden copy of the input. -/
theorem c3_stats_recomputation (o : DedupeOracles) (req : AutoDistillRequest) :
    (processDedupeRequest o req).stats.startingBlockCount =
      (activeBlocks req.results).length ∧
    (processDedupeRequest o req).stats.blocksRemoved =
      ((processDedupeRequest o req).stats.startingBlockCount : ℤ) ∧
    (processDedupeRequest o req).stats.blocksAdded =
      (processDedupeRequest o req).stats.finalBlockCount ∧
    (processDedupeRequest o req).stats.finalBlockCount =
      (mergedSection o req).length ∧
    (processDedupeRequest o req).results =
      req.results.map hideBlock ++ mergedSection o req ∧
    (processDedupeRequest o req).stats.blockReductionPercent =
      (if 0 < (processDedupeRequest o req).stats.startingBlockCount then
        round2 (100 *
          (1 - ((processDedupeRequest o req).stats.finalBlockCount : ℚ) /
            (processDedupeRequest o req).stats.startingBlockCount))
      else 0) ∧
    (processDedupeRequest o reqSingleHidden).stats.finalBlockCount = 0 ∧
    (processDedupeRequest o reqSingleHidden).stats.blocksAdded = 0 ∧
    (processDedupeRequest o reqSingleHidden).results =
      reqSingleHidden.results.map hideBlock :=
  ⟨runDedupe_stats_starting o req.results req.similarity req.iterations,
   rfl, rfl, rfl, rfl, rfl, rfl, rfl, rfl⟩
